import Mathlib

/-!
Shallow embedding of the Financial Forensics Engine
(`backend/app/` of the repository) in Lean 4.

Modelling conventions
 - Account ids are `ℕ`. The Python code treats account-id strings as opaque
   values that are only compared (`=`, `min`, `sorted`, lexicographic `<`);
   every use is order-theoretic, so the ids are abstracted to an arbitrary
   countable linear order, concretely `ℕ`. "Lexicographically smallest"
   becomes "smallest in the id order".
 - Pattern labels (the strings "cycle_length_3", ..., "structuring") are a
   closed inductive type `Pat`; `Pat.idx` orders them exactly as Python's
   alphabetical sort of the corresponding strings orders the strings.
 - Ring ids `RING_001`, `RING_002`, ... are the naturals 1, 2, ...
   (`f"RING_{i:03d}"` is injective in `i`; only equality of ring ids is ever
   used by the engine).
 - Amounts and timestamps are `ℚ`; the Python code computes with IEEE
   doubles, and the spec's design note says "amounts are reals ... internal
   math is double precision", so we model the intended real semantics.
   Timestamps are rational seconds (pandas timestamp subtraction with
   `total_seconds()` maps to subtraction in `ℚ`).
 - Python `round(x, d)` (round-half-to-even on the decimal grid) is
   `pyRound d x`.
 - Python dicts preserve insertion order; they are modelled by association
   lists with insert-at-end update. Python sets are modelled by lists where
   only membership matters; where a set's iteration order can leak into the
   output (the node set built by `build_graph`), the order is an explicit
   parameter.
-/

abbrev Account := ℕ

/-- A validated transaction row (`transaction_id` is never read by the
detectors or the scorer, so it is omitted). `amount > 0` and
`sender ≠ receiver` hold for validated tables; theorems that need these
facts take them as hypotheses. -/
structure Tx where
  sender : Account
  receiver : Account
  amount : ℚ
  timestamp : ℚ
deriving Repr, DecidableEq

/-- The pattern labels that can appear in `patterns` / `merged_patterns` /
ring `pattern` fields, in the alphabetical order of their Python strings:
"amount_anomaly" < "cycle_length_3" < "cycle_length_4" < "cycle_length_5"
< "fan_in" < "fan_out" < "high_velocity" < "multi_ring" < "rapid_movement"
< "round_trip" < "shell_chain" < "structuring". -/
inductive Pat where
  | amount_anomaly
  | cycle_length_3
  | cycle_length_4
  | cycle_length_5
  | fan_in
  | fan_out
  | high_velocity
  | multi_ring
  | rapid_movement
  | round_trip
  | shell_chain
  | structuring
deriving Repr, DecidableEq

/-- Position of a label in the alphabetical order of the Python strings;
sorting labels by `idx` is Python's `sorted` on the label strings. -/
def Pat.idx : Pat → ℕ
  | .amount_anomaly => 0
  | .cycle_length_3 => 1
  | .cycle_length_4 => 2
  | .cycle_length_5 => 3
  | .fan_in => 4
  | .fan_out => 5
  | .high_velocity => 6
  | .multi_ring => 7
  | .rapid_movement => 8
  | .round_trip => 9
  | .shell_chain => 10
  | .structuring => 11

/-- Round-half-to-even to the nearest integer, as Python's builtin `round`. -/
def pyRoundInt (x : ℚ) : ℤ :=
  let f : ℤ := ⌊x⌋
  let r : ℚ := x - f
  if r < 1/2 then f
  else if r > 1/2 then f + 1
  else if Even f then f else f + 1

/-- Python `round(x, d)`: round-half-to-even on the grid of `10 ^ d`-ths. -/
def pyRound (d : ℕ) (x : ℚ) : ℚ :=
  (pyRoundInt (x * (10 : ℚ) ^ d) : ℚ) / (10 : ℚ) ^ d

theorem pyRoundInt_nonneg {x : ℚ} (hx : 0 ≤ x) : 0 ≤ pyRoundInt x := by
  have hf : (0 : ℤ) ≤ ⌊x⌋ := Int.floor_nonneg.mpr hx
  simp only [pyRoundInt]
  split_ifs <;> omega

theorem pyRound_nonneg (d : ℕ) {x : ℚ} (hx : 0 ≤ x) : 0 ≤ pyRound d x := by
  unfold pyRound
  have h1 : 0 ≤ x * (10 : ℚ) ^ d := by positivity
  have h2 := pyRoundInt_nonneg h1
  have h3 : (0 : ℚ) ≤ (pyRoundInt (x * (10 : ℚ) ^ d) : ℚ) := by exact_mod_cast h2
  positivity

/-- Python `min(xs)` on a nonempty list (left fold, as CPython). -/
def pyMin [LinearOrder α] [Inhabited α] : List α → α
  | [] => default
  | a :: rest => rest.foldl min a

theorem foldl_min_le_init [LinearOrder α] (l : List α) (a : α) :
    l.foldl min a ≤ a := by
  induction l generalizing a with
  | nil => simp
  | cons b t ih => exact le_trans (ih (min a b)) (min_le_left a b)

theorem foldl_min_mem [LinearOrder α] (l : List α) (a : α) :
    l.foldl min a = a ∨ l.foldl min a ∈ l := by
  induction l generalizing a with
  | nil => simp
  | cons b t ih =>
    rcases ih (min a b) with h | h
    · rcases min_choice a b with hc | hc
      · left; rw [List.foldl, h, hc]
      · right; rw [List.foldl, h, hc]; exact List.mem_cons_self b t
    · right; exact List.mem_cons_of_mem b h

theorem foldl_min_le_mem [LinearOrder α] (l : List α) (a : α) {x : α}
    (hx : x ∈ l) : l.foldl min a ≤ x := by
  induction l generalizing a with
  | nil => simp at hx
  | cons b t ih =>
    rcases List.mem_cons.mp hx with rfl | hx
    · exact le_trans (foldl_min_le_init t (min a x)) (min_le_right a x)
    · exact ih (min a b) hx

theorem pyMin_mem [LinearOrder α] [Inhabited α] {l : List α} (h : l ≠ []) :
    pyMin l ∈ l := by
  cases l with
  | nil => exact absurd rfl h
  | cons a t =>
    rcases foldl_min_mem t a with h1 | h1
    · rw [pyMin, h1]; exact List.mem_cons_self a t
    · exact List.mem_cons_of_mem a h1

theorem pyMin_le [LinearOrder α] [Inhabited α] {l : List α} {x : α}
    (hx : x ∈ l) : pyMin l ≤ x := by
  cases l with
  | nil => simp at hx
  | cons a t =>
    rcases List.mem_cons.mp hx with rfl | hx
    · exact foldl_min_le_init t x
    · exact foldl_min_le_mem t a hx

/-- Stable insertion used by `pySortBy`: a new element goes after all
existing elements whose key is ≤ its key (this is what makes the sort
stable, matching Python's stable `sorted` / pandas mergesort). -/
def stableInsert [LinearOrder β] (key : α → β) (a : α) : List α → List α
  | [] => [a]
  | b :: t => if key b ≤ key a then b :: stableInsert key a t else a :: b :: t

/-- Stable sort by a key, modelling Python's `sorted` / `sort_values`. -/
def pySortBy [LinearOrder β] (key : α → β) (l : List α) : List α :=
  l.foldl (fun acc a => stableInsert key a acc) []

/-- Python `sorted` on a list of values. -/
def pySorted [LinearOrder α] (l : List α) : List α := pySortBy id l

/-- First-occurrence deduplication (the order in which Python code such as
a groupby sees each key first). -/
def dedupKeepFirst [DecidableEq α] : List α → List α
  | [] => []
  | a :: t => a :: (dedupKeepFirst (t.filter (· ≠ a)))
termination_by l => l.length
decreasing_by
  simp only [List.length_cons]
  exact Nat.lt_succ_of_le (List.length_filter_le _ _)

/-- Sorted distinct keys of a column: pandas `groupby` enumerates group keys
in sorted order. -/
def groupKeys (col : List Account) : List Account :=
  pySorted (dedupKeepFirst col)

namespace Config

/-! Constants from `config.py` (environment defaults). -/

def CYCLE_MIN_LEN : ℕ := 3
def CYCLE_MAX_LEN : ℕ := 5
def MAX_CYCLES : ℕ := 5000
def FAN_THRESHOLD : ℕ := 10
def SMURF_WINDOW_HOURS : ℕ := 72
def MERCHANT_AMOUNT_CV_THRESHOLD : ℚ := 15/100
def PAYROLL_BATCH_SECONDS : ℚ := 60
def SHELL_MAX_TX : ℕ := 3
def SHELL_MIN_CHAIN : ℕ := 3
def SHELL_MAX_CHAIN : ℕ := 6
def MAX_SHELL_CHAINS : ℕ := 1000
def SCORE_CYCLE_3 : ℚ := 35
def SCORE_CYCLE_4 : ℚ := 30
def SCORE_CYCLE_5 : ℚ := 25
def SCORE_FAN_IN : ℚ := 28
def SCORE_FAN_OUT : ℚ := 28
def SCORE_SHELL : ℚ := 22
def SCORE_HIGH_VELOCITY : ℚ := 15
def SCORE_MULTI_RING_BONUS : ℚ := 10
def SCORE_CENTRALITY_MAX : ℚ := 10
def HIGH_VELOCITY_TX_PER_DAY : ℚ := 5
def SCORE_AMOUNT_ANOMALY : ℚ := 20
def SCORE_ROUND_TRIP : ℚ := 20
def SCORE_RAPID_MOVEMENT : ℚ := 20
def SCORE_STRUCTURING : ℚ := 15
def MIN_SUSPICION_SCORE : ℚ := 20
def AMOUNT_ANOMALY_STDDEV : ℚ := 3
def ROUND_TRIP_AMOUNT_TOLERANCE : ℚ := 2/10
def RAPID_MOVEMENT_MINUTES : ℚ := 30
def STRUCTURING_THRESHOLD : ℚ := 10000
def STRUCTURING_MARGIN : ℚ := 15/100
def STRUCTURING_MIN_TX : ℕ := 3

/-- `RING_RISK` from `config.py`. -/
def RING_RISK (pattern : Pat) : Option ℚ :=
  match pattern with
  | .cycle_length_3 => some 95
  | .cycle_length_4 => some 88
  | .cycle_length_5 => some 80
  | .fan_in => some 75
  | .fan_out => some 75
  | .shell_chain => some 70
  | .round_trip => some 82
  | _ => none

end Config

/-- `hub_type` values set by the smurf detector. -/
inductive HubType where
  | aggregator
  | disperser
deriving Repr, DecidableEq

/-- A ring dict as produced by the detectors and enriched by
`assign_ring_ids`. Fields that a given detector does not set keep their
defaults (Python dicts simply lack the keys; no downstream code reads an
absent key). `member_count` (smurf) and `chain_length` (shell) are set but
never read downstream; they are carried for fidelity. -/
structure FRing where
  members : List Account
  pattern : Pat
  cycle_length : Option ℕ := none
  hub : Option Account := none
  hub_type : Option HubType := none
  member_count : Option ℕ := none
  chain_length : Option ℕ := none
  shell_intermediaries : List Account := []
  forward_amount : Option ℚ := none
  reverse_amount : Option ℚ := none
  similarity : Option ℚ := none
  merged_patterns : List Pat := []
  ring_id : ℕ := 0
deriving Repr, DecidableEq

/-! ### `cycle_detector.py` -/

/-- `_canonical_cycle`: rotate the cycle so that the smallest account id is
first (`min_idx = cycle.index(min(cycle)); cycle[min_idx:] + cycle[:min_idx]`). -/
def canonicalCycle (cycle : List Account) : List Account :=
  if cycle = [] then cycle
  else
    let minIdx := cycle.indexOf (pyMin cycle)
    cycle.drop minIdx ++ cycle.take minIdx

/-- The pattern string `f"cycle_length_{length}"`; only lengths 3–5 reach
this point in `detect_cycles`. -/
def cyclePat (length : ℕ) : Pat :=
  if length = 3 then .cycle_length_3
  else if length = 4 then .cycle_length_4
  else .cycle_length_5

/-- Loop body of `detect_cycles`, fed the stream of cycles that
`nx.simple_cycles` yields on the SCC subgraph `H` (the NetworkX library is
external to the repository; theorems take its contract — each yielded list
is a simple directed cycle of the graph — as a hypothesis). `seen` models
the Python set of canonical keys (membership-only use). The wall-clock
timeout only truncates the stream, which a shorter `cycles` argument
already models, so no separate timeout state is needed. -/
def detectCyclesGo : List (List Account) → List (List Account) → ℕ → List FRing
  | [], _, _ => []
  | c :: rest, seen, count =>
    if Config.MAX_CYCLES ≤ count then []
    else
      let length := c.length
      if length < Config.CYCLE_MIN_LEN ∨ Config.CYCLE_MAX_LEN < length then
        detectCyclesGo rest seen count
      else
        let key := canonicalCycle c
        if key ∈ seen then detectCyclesGo rest seen count
        else
          { members := key, pattern := cyclePat length,
            cycle_length := some length } :: detectCyclesGo rest (key :: seen) (count + 1)

/-- `detect_cycles` (post-SCC-filter loop over the `simple_cycles` stream). -/
def detectCycles (cycles : List (List Account)) : List FRing :=
  detectCyclesGo cycles [] 0

/-- The successive-pairs view of a cycle list: each element paired with its
cyclic successor (`[a,b,c] ↦ [(a,b),(b,c),(c,a)]`). -/
def cyclePairs (c : List Account) : List (Account × Account) :=
  c.zip (c.rotate 1)

/-- `c` is a simple directed cycle in the edge set `E`: nonempty, no
repeated node, and every cyclic successor pair is an edge. This is the
contract of `nx.simple_cycles` elements, read back on the full graph
(cycles of the SCC subgraph view `H = G.subgraph(...)` are cycles of `G`). -/
def IsSimpleCycleIn (E : List (Account × Account)) (c : List Account) : Prop :=
  c ≠ [] ∧ c.Nodup ∧ ∀ p ∈ cyclePairs c, p ∈ E

instance (E : List (Account × Account)) (c : List Account) :
    Decidable (IsSimpleCycleIn E c) := by
  unfold IsSimpleCycleIn; infer_instance

/-! ### `bidirectional_detector.py` -/

/-- An edge list with aggregate amounts: `(u, v, total_amount)` per directed
edge of `G`. A well-formed graph has no duplicate `(u, v)` key (hypothesis
`NoDupKeys` below). -/
abbrev EdgeList := List (Account × Account × ℚ)

def EdgeList.NoDupKeys (E : EdgeList) : Prop :=
  (E.map (fun e => (e.1, e.2.1))).Nodup

instance (E : EdgeList) : Decidable E.NoDupKeys := by
  unfold EdgeList.NoDupKeys; infer_instance

/-- `G[v][u].get("total_amount", 0.0)` / `G.has_edge(v, u)`: look up the
directed edge `u → v` in the edge list. -/
def edgeAmount (E : EdgeList) (u v : Account) : Option ℚ :=
  (E.find? (fun e => e.1 == u && e.2.1 == v)).map (fun e => e.2.2)

/-- Loop body of `detect_round_trips`. `E` stays the whole edge list (for
the reverse-edge lookups); `todo` is the not-yet-iterated suffix; `seen`
holds the sorted pair keys already handled. Note the source adds the key to
`seen` *before* the positive-amount and tolerance checks. -/
def detectRoundTripsGo (E : EdgeList) :
    List (Account × Account × ℚ) → List (List Account) → List FRing
  | [], _ => []
  | (u, v, amt) :: todo, seen =>
    match edgeAmount E v u with
    | none => detectRoundTripsGo E todo seen
    | some revAmt =>
      let key := pySorted [u, v]
      if key ∈ seen then detectRoundTripsGo E todo seen
      else
        let seen' := key :: seen
        let fwdAmount := amt
        if fwdAmount ≤ 0 ∨ revAmt ≤ 0 then detectRoundTripsGo E todo seen'
        else
          let larger := max fwdAmount revAmt
          let smaller := min fwdAmount revAmt
          let diffRatio := (larger - smaller) / larger
          if diffRatio ≤ Config.ROUND_TRIP_AMOUNT_TOLERANCE then
            { members := pySorted [u, v], pattern := .round_trip,
              forward_amount := some fwdAmount,
              reverse_amount := some revAmt,
              similarity := some (pyRound 3 (1 - diffRatio)) }
              :: detectRoundTripsGo E todo seen'
          else detectRoundTripsGo E todo seen'

/-- `detect_round_trips`. -/
def detectRoundTrips (E : EdgeList) : List FRing :=
  detectRoundTripsGo E E []

/-! ### `rapid_movement_detector.py` -/

/-- `if min_dwell is None or dwell < min_dwell: min_dwell = dwell`. -/
def updateMin (m : Option ℚ) (d : ℚ) : Option ℚ :=
  match m with
  | none => some d
  | some x => if d < x then some d else some x

/-- The inner `while k < len(out_times)` scan for one incoming timestamp
`t`: walk the outgoing timestamps, stop at the first dwell beyond the
window, count every pair with nonnegative dwell and track the minimum. -/
def scanOuts (t : ℚ) : List ℚ → Option ℚ × ℕ → Option ℚ × ℕ
  | [], st => st
  | o :: rest, (minD, cnt) =>
    let dwell := (o - t) / 60
    if Config.RAPID_MOVEMENT_MINUTES < dwell then (minD, cnt)
    else if 0 ≤ dwell then scanOuts t rest (updateMin minD dwell, cnt + 1)
    else scanOuts t rest (minD, cnt)

/-- The outer `for in_ts in in_times` loop. The shared pointer `j` (which
only ever advances) is modelled by keeping the remaining suffix of the
outgoing list: `j` advancing past all `out_times[j] < in_ts` is
`dropWhile (< t)`. -/
def rapidLoop : List ℚ → List ℚ → Option ℚ × ℕ → Option ℚ × ℕ
  | [], _, st => st
  | t :: ins, outs, st =>
    let outs' := outs.dropWhile (fun o => decide (o < t))
    rapidLoop ins outs' (scanOuts t outs' st)

/-- Per-account body of `detect_rapid_movements`: given the account's
incoming and outgoing timestamp lists (each ascending, as produced from the
timestamp-sorted frame), return `{min_dwell_minutes, rapid_count}` when
`rapid_count > 0`. -/
def rapidResult (ins outs : List ℚ) : Option (ℚ × ℕ) :=
  let st := rapidLoop ins outs (none, 0)
  if 0 < st.2 then
    match st.1 with
    | some m => some (pyRound 1 m, st.2)
    | none => none
  else none

/-! ### `smurf_detector.py`
(the module defines `_sliding_window_unique` and `detect_smurfing` twice,
identically; Python keeps the later definitions, so one embedding covers
both copies). -/

/-- Python `max(xs)` on a nonempty list. -/
def pyMax [LinearOrder α] [Inhabited α] : List α → α
  | [] => default
  | a :: rest => rest.foldl max a

/-- Population variance (`numpy.ndarray.std` squared: ddof = 0), used via
its square to avoid the square root — see `merchantCvExceeds`. -/
def popVariance (xs : List ℚ) : ℚ :=
  let n : ℚ := xs.length
  let mean := xs.sum / n
  (xs.map (fun x => (x - mean) ^ 2)).sum / n

/-- Per-receiver body of `_merchant_receivers`:
`cv = amounts.std() / mean; cv > MERCHANT_AMOUNT_CV_THRESHOLD` with numpy's
population std. Since `std = √variance ≥ 0`, for the positive threshold
`t`: `std / mean > t ↔ 0 < mean ∧ variance > t² · mean²` (squaring both
sides of `std > t·mean`, which are nonnegative when `0 < mean`; when
`mean < 0` the quotient is ≤ 0 < t). The square form keeps the definition
inside `ℚ`. The source skips groups with `mean == 0` explicitly. -/
def merchantCvExceeds (amounts : List ℚ) : Prop :=
  2 ≤ amounts.length ∧
    (let mean := amounts.sum / amounts.length
     mean ≠ 0 ∧ 0 < mean ∧
       Config.MERCHANT_AMOUNT_CV_THRESHOLD ^ 2 * mean ^ 2 < popVariance amounts)

instance (amounts : List ℚ) : Decidable (merchantCvExceeds amounts) := by
  unfold merchantCvExceeds; infer_instance

/-- `_merchant_receivers`: receivers whose incoming-amount coefficient of
variation exceeds the threshold (a Python set; membership-only use). -/
def merchantReceivers (df : List Tx) : List Account :=
  (groupKeys (df.map (·.receiver))).filter
    (fun r => decide (merchantCvExceeds ((df.filter (fun t => t.receiver = r)).map (·.amount))))

/-- Per-sender body of `_payroll_senders`: at least two outgoing rows and
`times.sorted().iloc[-1] - times.sorted().iloc[0] ≤ PAYROLL_BATCH_SECONDS`;
last-minus-first of the sorted list is `max − min`. -/
def payrollSpanSmall (times : List ℚ) : Prop :=
  2 ≤ times.length ∧ pyMax times - pyMin times ≤ Config.PAYROLL_BATCH_SECONDS

instance (times : List ℚ) : Decidable (payrollSpanSmall times) := by
  unfold payrollSpanSmall; infer_instance

/-- `_payroll_senders` (a Python set; membership-only use). -/
def payrollSenders (df : List Tx) : List Account :=
  (groupKeys (df.map (·.sender))).filter
    (fun s => decide (payrollSpanSmall ((df.filter (fun t => t.sender = s)).map (·.timestamp))))

/-- `window[cp] = window.get(cp, 0) + 1` on the insertion-ordered dict. -/
def winInc (w : List (Account × ℕ)) (cp : Account) : List (Account × ℕ) :=
  if w.any (fun p => p.1 == cp) then
    w.map (fun p => if p.1 = cp then (p.1, p.2 + 1) else p)
  else w ++ [(cp, 1)]

/-- `window[lcp] -= 1; if window[lcp] == 0: del window[lcp]`. -/
def winDec (w : List (Account × ℕ)) (cp : Account) : List (Account × ℕ) :=
  (w.map (fun p => if p.1 = cp then (p.1, p.2 - 1) else p)).filter (fun p => p.2 ≠ 0)

/-- The `while sorted_times[right] - sorted_times[left] > window_td` pointer
advance: pop (time, counterparty) pairs from the left suffix, decrementing
the window multiset for non-hub counterparties. -/
def advanceLeft (tR : ℚ) (hub : Account) (windowTd : ℚ) :
    List (ℚ × Account) → List (Account × ℕ) → List (ℚ × Account) × List (Account × ℕ)
  | [], w => ([], w)
  | (tL, cpL) :: rest, w =>
    if windowTd < tR - tL then
      advanceLeft tR hub windowTd rest (if cpL ≠ hub then winDec w cpL else w)
    else ((tL, cpL) :: rest, w)

/-- Main loop of `_sliding_window_unique`: `right` walks the (time,
counterparty) pairs; `leftRest` is the suffix starting at the `left`
pointer; `window` is the in-window multiset of non-hub counterparties. -/
def slidingGo (hub : Account) (windowTd : ℚ) (threshold : ℕ) :
    List (ℚ × Account) → List (ℚ × Account) → List (Account × ℕ) → Bool × List Account
  | [], _, _ => (false, [])
  | (tR, cp) :: rest, leftRest, w =>
    let w1 := if cp ≠ hub then winInc w cp else w
    let (leftRest2, w2) := advanceLeft tR hub windowTd leftRest w1
    if threshold ≤ w2.length then (true, w2.map (·.1))
    else slidingGo hub windowTd threshold rest leftRest2 w2

/-- `_sliding_window_unique(sorted_times, sorted_counterparts, hub,
window_td, threshold)`, on the zipped pair list. Returns
`(triggered, unique counterparties of the triggering window)`. -/
def slidingWindowUnique (pairs : List (ℚ × Account)) (hub : Account)
    (windowTd : ℚ) (threshold : ℕ) : Bool × List Account :=
  if pairs.length < threshold then (false, [])
  else slidingGo hub windowTd threshold pairs pairs []

/-- Fan-in half of `detect_smurfing`: iterate the receiver groups of the
timestamp-sorted frame (pandas groupby enumerates keys in sorted order),
skip merchant-excluded receivers, and emit one ring per triggering hub.
`seen` is the `(pattern, hub)` dedup set. -/
def smurfFanInGo (dfs : List Tx) (excluded : List Account) (windowTd : ℚ) :
    List Account → List (Pat × Account) → List FRing × List (Pat × Account)
  | [], seen => ([], seen)
  | receiver :: keys, seen =>
    if receiver ∈ excluded then smurfFanInGo dfs excluded windowTd keys seen
    else
      let grp := pySortBy (fun t => t.timestamp) (dfs.filter (fun t => t.receiver = receiver))
      let pairs := (grp.map (·.timestamp)).zip (grp.map (·.sender))
      let res := slidingWindowUnique pairs receiver windowTd Config.FAN_THRESHOLD
      if res.1 then
        if (Pat.fan_in, receiver) ∈ seen then smurfFanInGo dfs excluded windowTd keys seen
        else
          let members := pySorted res.2 ++ [receiver]
          let rest := smurfFanInGo dfs excluded windowTd keys ((Pat.fan_in, receiver) :: seen)
          ({ members := members, pattern := .fan_in, hub := some receiver,
             hub_type := some .aggregator, member_count := some members.length } :: rest.1,
            rest.2)
      else smurfFanInGo dfs excluded windowTd keys seen

/-- Fan-out half of `detect_smurfing`. -/
def smurfFanOutGo (dfs : List Tx) (excluded : List Account) (windowTd : ℚ) :
    List Account → List (Pat × Account) → List FRing × List (Pat × Account)
  | [], seen => ([], seen)
  | sender :: keys, seen =>
    if sender ∈ excluded then smurfFanOutGo dfs excluded windowTd keys seen
    else
      let grp := pySortBy (fun t => t.timestamp) (dfs.filter (fun t => t.sender = sender))
      let pairs := (grp.map (·.timestamp)).zip (grp.map (·.receiver))
      let res := slidingWindowUnique pairs sender windowTd Config.FAN_THRESHOLD
      if res.1 then
        if (Pat.fan_out, sender) ∈ seen then smurfFanOutGo dfs excluded windowTd keys seen
        else
          let members := sender :: pySorted res.2
          let rest := smurfFanOutGo dfs excluded windowTd keys ((Pat.fan_out, sender) :: seen)
          ({ members := members, pattern := .fan_out, hub := some sender,
             hub_type := some .disperser, member_count := some members.length } :: rest.1,
            rest.2)
      else smurfFanOutGo dfs excluded windowTd keys seen

/-- `detect_smurfing` (`window_td = timedelta(hours=SMURF_WINDOW_HOURS)` in
seconds). -/
def detectSmurfing (df : List Tx) : List FRing :=
  let windowTd : ℚ := Config.SMURF_WINDOW_HOURS * 3600
  let excludedFanIn := merchantReceivers df
  let excludedFanOut := payrollSenders df
  let dfs := pySortBy (fun t => t.timestamp) df
  let fanIn := smurfFanInGo dfs excludedFanIn windowTd (groupKeys (dfs.map (·.receiver))) []
  let fanOut := smurfFanOutGo dfs excludedFanOut windowTd (groupKeys (dfs.map (·.sender))) fanIn.2
  fanIn.1 ++ fanOut.1

/-! ### `graph_builder.py` (the slice the detectors read)

`build_graph` keys the node set by
`pd.Index(set(df.sender_id) | set(df.receiver_id))`: a Python *set* of
strings, whose iteration order depends on the interpreter's string-hash
seed (`PYTHONHASHSEED`) and is therefore not a function of the input
table. The node insertion order — hence `G.nodes()` iteration order — is
modelled as the explicit parameter `nodeOrder`; theorems either quantify
over it or exhibit concrete orders (always permutations of the account
set). Edges are inserted from the `(sender_id, receiver_id)` groupby,
whose keys pandas sorts, so successor lists are in sorted order. SCCs are
computed by NetworkX (external library); they enter as a parameter that
concrete theorems instantiate with the actual SCC decomposition. -/

structure GraphView where
  nodes : List Account
  txCount : Account → ℕ
  succ : Account → List Account
  inDeg : Account → ℕ
  outDeg : Account → ℕ
  sccs : List (List Account)

/-- The node attributes and adjacency of `build_graph(df)` that the shell
detector reads: `tx_count = sent_count + received_count`, successors =
distinct receivers (sorted), degrees of the collapsed weighted digraph. -/
def buildGraphView (df : List Tx) (nodeOrder : List Account)
    (sccs : List (List Account)) : GraphView where
  nodes := nodeOrder
  txCount n := (df.countP (fun t => t.sender = n)) + (df.countP (fun t => t.receiver = n))
  succ n := groupKeys ((df.filter (fun t => t.sender = n)).map (·.receiver))
  inDeg n := (groupKeys ((df.filter (fun t => t.receiver = n)).map (·.sender))).length
  outDeg n := (groupKeys ((df.filter (fun t => t.sender = n)).map (·.receiver))).length
  sccs := sccs

/-- The weighted edge list of `build_graph(df)` (insertion order: groupby
keys sorted by `(sender, receiver)`), as read by the round-trip detector. -/
def buildEdgeList (df : List Tx) : EdgeList :=
  (pySortBy (fun p : Account × Account => toLex p)
      (dedupKeepFirst (df.map (fun t => (t.sender, t.receiver))))).map
    (fun p => (p.1, p.2, ((df.filter (fun t => t.sender = p.1 ∧ t.receiver = p.2)).map (·.amount)).sum))

/-! ### `shell_detector.py` -/

/-- Nodes in an SCC of size > 1 (`cycle_nodes`; a set, membership-only). -/
def cycleNodesOf (sccs : List (List Account)) : List Account :=
  (sccs.filter (fun c => 1 < c.length)).flatten

/-- The pass-through shell node set of `detect_shell_networks`. -/
def shellNodesOf (gv : GraphView) : List Account :=
  gv.nodes.filter (fun n =>
    gv.txCount n ≤ Config.SHELL_MAX_TX ∧ 0 < gv.inDeg n ∧ 0 < gv.outDeg n ∧
      n ∉ cycleNodesOf gv.sccs)

/-- State threaded through the shell DFS: rings recorded so far (in
emission order), the `seen_paths` dedup set of interior tuples, and
`chain_count`. -/
structure ShellSt where
  rings : List FRing
  seen : List (List Account)
  count : ℕ

/-- The `for nbr in G.successors(current)` body of the shell DFS: record a
chain when the extension has enough hops and all-shell interior, and
collect the extensions to push (`nbr` a shell and below the depth cap).
Returns the updated state and the pushes in successor order. -/
def shellVisit (shellNodes : List Account) (path : List Account)
    (visited : List Account) :
    List Account → ShellSt → ShellSt × List (List Account × List Account)
  | [], st => (st, [])
  | nbr :: nbrs, st =>
    if nbr ∈ visited then shellVisit shellNodes path visited nbrs st
    else
      let newPath := path ++ [nbr]
      let newHops := newPath.length - 1
      let intermediaries := (newPath.drop 1).dropLast
      let st1 :=
        if Config.SHELL_MIN_CHAIN ≤ newHops ∧ (∀ n ∈ intermediaries, n ∈ shellNodes) then
          if intermediaries ∈ st.seen then st
          else
            { rings := st.rings ++
                [{ members := intermediaries, pattern := .shell_chain,
                   chain_length := some newHops,
                   shell_intermediaries := intermediaries }],
              seen := intermediaries :: st.seen,
              count := st.count + 1 }
        else st
      let (st2, pushes) := shellVisit shellNodes path visited nbrs st1
      if nbr ∈ shellNodes ∧ newHops < Config.SHELL_MAX_CHAIN then
        (st2, (newPath, visited ++ [nbr]) :: pushes)
      else (st2, pushes)

/-- The `while stack and chain_count < MAX_SHELL_CHAINS` loop. The Python
stack appends and pops at the list's end; here the head of `stack` is the
top, so the pushes of one visit go on in reverse successor order (the last
successor ends up on top, exactly as `append` puts it last and `pop` takes
it first). `fuel` is a termination bound for the model only: the Python
loop terminates because paths are duplicate-free, and every theorem either
quantifies over `fuel` or supplies enough of it. -/
def shellWhile (shellNodes : List Account) (gsucc : Account → List Account) :
    ℕ → List (List Account × List Account) → ShellSt → ShellSt
  | 0, _, st => st
  | _ + 1, [], st => st
  | fuel + 1, (path, visited) :: stack, st =>
    if Config.MAX_SHELL_CHAINS ≤ st.count then st
    else
      let current := path.getLast!
      let (st1, pushes) := shellVisit shellNodes path visited (gsucc current) st
      shellWhile shellNodes gsucc fuel (pushes.reverse ++ stack) st1

/-- The `for source in candidate_sources` loop. -/
def shellSources (shellNodes : List Account) (gsucc : Account → List Account)
    (fuel : ℕ) : List Account → ShellSt → ShellSt
  | [], st => st
  | source :: sources, st =>
    if Config.MAX_SHELL_CHAINS ≤ st.count then st
    else
      let stack0 := ((gsucc source).filter (fun nbr => nbr ∈ shellNodes)).map
        (fun nbr => ([source, nbr], [source, nbr]))
      let st1 := shellWhile shellNodes gsucc fuel stack0.reverse st
      shellSources shellNodes gsucc fuel sources st1

/-- `detect_shell_networks(G)`. -/
def detectShellNetworks (gv : GraphView) (fuel : ℕ) : List FRing :=
  let shellNodes := shellNodesOf gv
  if shellNodes = [] then []
  else
    let candidateSources := gv.nodes.filter
      (fun n => (gv.succ n).any (fun nbr => nbr ∈ shellNodes))
    (shellSources shellNodes gv.succ fuel candidateSources ⟨[], [], 0⟩).rings

/-! ### `utils.py` — ring merging and ID assignment -/

/-- `_should_merge(ring_a, ring_b)`: overlap of the member *sets* over the
smaller set's size, ≥ `_MERGE_OVERLAP_RATIO` (0.5). -/
def shouldMerge (a b : FRing) : Prop :=
  let setA := dedupKeepFirst a.members
  let setB := dedupKeepFirst b.members
  let overlap := (setA.filter (fun x => x ∈ setB)).length
  let smaller := min setA.length setB.length
  smaller ≠ 0 ∧ (1 : ℚ)/2 ≤ (overlap : ℚ) / smaller

instance (a b : FRing) : Decidable (shouldMerge a b) := by
  unfold shouldMerge; infer_instance

/-- `_priority` from `_merge_rings`: the first listed pattern present among
the group's patterns becomes the primary pattern; if none is present the
seed's pattern stays (the dict copy keeps `ring_i["pattern"]`). -/
def primaryPattern (pats : List Pat) (dflt : Pat) : Pat :=
  if Pat.cycle_length_3 ∈ pats then .cycle_length_3
  else if Pat.cycle_length_4 ∈ pats then .cycle_length_4
  else if Pat.cycle_length_5 ∈ pats then .cycle_length_5
  else if Pat.fan_in ∈ pats then .fan_in
  else if Pat.fan_out ∈ pats then .fan_out
  else if Pat.round_trip ∈ pats then .round_trip
  else if Pat.shell_chain ∈ pats then .shell_chain
  else dflt

/-- One seed's merged group: `current = dict(ring_i)` keeps every other
field of the seed; members become the sorted union; `merged_patterns` the
sorted pattern set. -/
def mergeGroup (seed : FRing) (absorbed : List FRing) : FRing :=
  let pats := dedupKeepFirst (seed.pattern :: absorbed.map (·.pattern))
  { seed with
    members := pySorted (dedupKeepFirst (seed.members ++ (absorbed.map (·.members)).flatten)),
    pattern := primaryPattern pats seed.pattern,
    merged_patterns := pySortBy Pat.idx pats }

/-- `_merge_rings`. The inner `for j` loop calls
`_should_merge(current, ring_j)` where `current["members"]` is still
`ring_i`'s ORIGINAL member list — `current["members"]` is only reassigned
after the loop — and the running union lives in the separate set
`current_members`. Hence within one pass every later unused ring is tested
against the seed's original members, independently of what was already
absorbed, and the rings marked `used` are exactly the absorbed ones; the
remaining rings are processed in order by later passes. -/
def mergeRings : List FRing → List FRing
  | [] => []
  | r :: rest =>
    let absorbed := rest.filter (fun s => decide (shouldMerge r s))
    let remaining := rest.filter (fun s => ¬ decide (shouldMerge r s))
    mergeGroup r absorbed :: mergeRings remaining
termination_by rings => rings.length
decreasing_by
  simp only [List.length_cons]
  exact Nat.lt_succ_of_le (List.length_filter_le _ _)

/-- `assign_ring_ids(cycle, smurf, shell, roundtrip, merge)`:
concatenate in priority order, optionally merge, then assign sequential
ids 1, 2, ... (`RING_001`, `RING_002`, ...). -/
def assignRingIds (cycleRings smurfRings shellRings roundtripRings : List FRing)
    (merge : Bool) : List FRing :=
  let combined := cycleRings ++ smurfRings ++ shellRings ++ roundtripRings
  let combined := if merge then mergeRings combined else combined
  combined.enum.map (fun p => { p.2 with ring_id := p.1 + 1 })

/-! ### `structuring_detector.py` -/

/-- `detect_structuring`: per flagged sender,
`(structured_tx_count, avg_amount)` (the additionally stored
`total_structured` is never read downstream and is omitted). -/
def detectStructuring (df : List Tx) : List (Account × ℕ × ℚ) :=
  if df = [] then []
  else
    let lowerBound := Config.STRUCTURING_THRESHOLD * (1 - Config.STRUCTURING_MARGIN)
    let suspiciousTx := df.filter
      (fun t => lowerBound ≤ t.amount ∧ t.amount < Config.STRUCTURING_THRESHOLD)
    if suspiciousTx = [] then []
    else
      (groupKeys (suspiciousTx.map (·.sender))).filterMap (fun sender =>
        let grp := suspiciousTx.filter (fun t => t.sender = sender)
        if Config.STRUCTURING_MIN_TX ≤ grp.length then
          some (sender, grp.length, pyRound 2 ((grp.map (·.amount)).sum / grp.length))
        else none)

/-! ### `scoring.py` -/

/-- `PATTERN_SCORES.get(pattern, 10.0)`. -/
def patternScore (p : Pat) : ℚ :=
  match p with
  | .cycle_length_3 => Config.SCORE_CYCLE_3
  | .cycle_length_4 => Config.SCORE_CYCLE_4
  | .cycle_length_5 => Config.SCORE_CYCLE_5
  | .fan_in => Config.SCORE_FAN_IN
  | .fan_out => Config.SCORE_FAN_OUT
  | .shell_chain => Config.SCORE_SHELL
  | .round_trip => Config.SCORE_ROUND_TRIP
  | _ => 10

/-- One account's scoring record (`data[acc]`): running score, the pattern
label set (insertion-ordered, deduplicated; sorted at finalization), the
ring id list, and the `_extra` fields. `risk_explanation` is a
deterministic string rendering of `(patterns, ring_ids, _extra)` that no
claim mentions; modelling Python string formatting adds nothing, so the
field is omitted. -/
structure ScoreEntry where
  score : ℚ := 0
  patterns : List Pat := []
  ring_ids : List ℕ := []
  min_dwell_minutes : Option ℚ := none
  rapid_count : Option ℕ := none
  structured_tx_count : Option ℕ := none
  avg_amount : Option ℚ := none
deriving Repr, DecidableEq

/-- The scorer's `data` dict: insertion-ordered account map. -/
abbrev AccMap := List (Account × ScoreEntry)

/-- `_entry(acc)` plus mutation: update in place when present, else insert
a fresh entry at the end (Python dicts append new keys). -/
def mapUpd (m : AccMap) (acc : Account) (f : ScoreEntry → ScoreEntry) : AccMap :=
  if m.any (fun p => p.1 == acc) then
    m.map (fun p => if p.1 = acc then (p.1, f p.2) else p)
  else m ++ [(acc, f {})]

/-- `set.add` on the insertion-ordered label list. -/
def addPat (p : Pat) (e : ScoreEntry) : ScoreEntry :=
  if p ∈ e.patterns then e else { e with patterns := e.patterns ++ [p] }

/-- `_velocity_accounts(df)`: accounts whose `tx_count / span_days` exceeds
the threshold. (`value_counts` of senders concatenated with receivers,
summed per account = occurrences as sender + occurrences as receiver.)
The result is a Python set; it is consumed membership-independently per
account, so the sorted enumeration fixed here does not affect any
per-account value. -/
def velocityAccounts (df : List Tx) : List Account :=
  match df with
  | [] => []
  | _ =>
    let spanDays : ℚ :=
      max ((pyMax (df.map (·.timestamp)) - pyMin (df.map (·.timestamp))) / 86400) 1
    (pySorted (dedupKeepFirst (df.map (·.sender) ++ df.map (·.receiver)))).filter
      (fun a => Config.HIGH_VELOCITY_TX_PER_DAY <
        ((df.countP (fun t => t.sender = a) + df.countP (fun t => t.receiver = a) : ℕ) : ℚ) / spanDays)

/-- Step 1 body for one ring and one member account. -/
def ringMemberUpd (ring : FRing) (acc : Account) (e : ScoreEntry) : ScoreEntry :=
  let baseScore := patternScore ring.pattern
  let e := if ring.ring_id ∈ e.ring_ids then e
           else { e with ring_ids := e.ring_ids ++ [ring.ring_id] }
  if ring.pattern = .fan_in ∨ ring.pattern = .fan_out then
    if some acc = ring.hub then
      addPat ring.pattern { e with score := e.score + baseScore }
    else e
  else if ring.pattern = .shell_chain then
    if acc ∈ ring.shell_intermediaries then
      addPat ring.pattern { e with score := e.score + baseScore }
    else { e with score := e.score + baseScore * (1/2) }
  else addPat ring.pattern { e with score := e.score + baseScore }

/-- Step 1: pattern contributions, folded over the rings and their member
lists. -/
def scoreRingsStep (rings : List FRing) (m : AccMap) : AccMap :=
  rings.foldl (fun m ring =>
    ring.members.foldl (fun m acc => mapUpd m acc (ringMemberUpd ring acc)) m) m

/-- Step 2 of `calculate_scores`: multi-ring bonus per account in the map. -/
def scoreMultiRing (m : AccMap) : AccMap :=
  m.map (fun p =>
    let extraRings : ℕ := p.2.ring_ids.length - 1
    if 0 < extraRings then
      (p.1, addPat .multi_ring
        { p.2 with score := p.2.score + Config.SCORE_MULTI_RING_BONUS * (extraRings : ℚ) })
    else p)

/-- Step 3: high-velocity bonus (inserts missing accounts via `_entry`). -/
def scoreVelocity (vel : List Account) (m : AccMap) : AccMap :=
  vel.foldl (fun m acc =>
    mapUpd m acc (fun e => addPat .high_velocity
      { e with score := e.score + Config.SCORE_HIGH_VELOCITY })) m

/-- Step 4: centrality bonus, only for accounts already in the map
(`if acc in data`), scaled by the maximum centrality value. -/
def scoreCentrality (cent : List (Account × ℚ)) (m : AccMap) : AccMap :=
  if cent ≠ [] then
    let maxC := pyMax (cent.map (·.2))
    cent.foldl (fun m p =>
      if m.any (fun q => q.1 == p.1) then
        m.map (fun q => if q.1 = p.1 then
          (q.1, { q.2 with score := q.2.score +
            (if 0 < maxC then p.2 / maxC * Config.SCORE_CENTRALITY_MAX else 0) })
          else q)
      else m) m
  else m

/-- Step 5: amount-anomaly bonus. -/
def scoreAnomaly (anom : List Account) (m : AccMap) : AccMap :=
  anom.foldl (fun m acc =>
    mapUpd m acc (fun e => addPat .amount_anomaly
      { e with score := e.score + Config.SCORE_AMOUNT_ANOMALY })) m

/-- Step 6: rapid-movement bonus plus the `_extra` dwell fields. -/
def scoreRapid (rapid : List (Account × ℚ × ℕ)) (m : AccMap) : AccMap :=
  rapid.foldl (fun m p =>
    mapUpd m p.1 (fun e => addPat .rapid_movement
      { e with score := e.score + Config.SCORE_RAPID_MOVEMENT,
               min_dwell_minutes := some p.2.1, rapid_count := some p.2.2 })) m

/-- Step 7: structuring bonus plus the `_extra` structuring fields. -/
def scoreStructuring (struct : List (Account × ℕ × ℚ)) (m : AccMap) : AccMap :=
  struct.foldl (fun m p =>
    mapUpd m p.1 (fun e => addPat .structuring
      { e with score := e.score + Config.SCORE_STRUCTURING,
               structured_tx_count := some p.2.1, avg_amount := some p.2.2 })) m

/-- Step 8: cap the rounded score at 100, sort the labels. -/
def scoreFinalize (m : AccMap) : AccMap :=
  m.map (fun p =>
    (p.1, { p.2 with score := min (pyRound 1 p.2.score) 100,
                     patterns := pySortBy Pat.idx p.2.patterns }))

/-- `calculate_scores(rings, df, G, anomaly, rapid, structuring)`: the
numbered steps 1–8 of the source in order. `cent` is the
betweenness-centrality map from NetworkX (external library),
`anomalyAccounts` / `rapidAccounts` / `structuringAccounts` the detector
outputs handed to the scorer. -/
def calculateScores (rings : List FRing) (df : List Tx)
    (cent : List (Account × ℚ)) (anomalyAccounts : List Account)
    (rapidAccounts : List (Account × ℚ × ℕ))
    (structuringAccounts : List (Account × ℕ × ℚ)) : AccMap :=
  scoreFinalize
    (scoreStructuring structuringAccounts
      (scoreRapid rapidAccounts
        (scoreAnomaly anomalyAccounts
          (scoreCentrality cent
            (scoreVelocity (velocityAccounts df)
              (scoreMultiRing (scoreRingsStep rings [])))))))

/-! ### `formatter.py` (the fields the claims touch) -/

/-- `_risk_score(ring)`. -/
def riskScore (ring : FRing) : ℚ :=
  let base := (Config.RING_RISK ring.pattern).getD 65
  let n : ℚ := ring.members.length
  min (pyRound 1 (base + max (n - 3) 0 * (1/2))) 100

/-- `_confidence_score(ring)`. -/
def confidenceScore (ring : FRing) : ℚ :=
  let n : ℚ := ring.members.length
  let baseConf : ℚ :=
    match ring.pattern with
    | .cycle_length_3 => 95/100
    | .cycle_length_4 => 90/100
    | .cycle_length_5 => 82/100
    | .fan_in => 78/100
    | .fan_out => 78/100
    | .shell_chain => 65/100
    | .round_trip => 80/100
    | _ => 60/100
  let baseConf := if 10 < n then baseConf - min ((n - 10) * (1/100)) (15/100) else baseConf
  let baseConf := if 1 < ring.merged_patterns.length then min (baseConf + 8/100) 1 else baseConf
  let baseConf :=
    if ring.pattern = .round_trip then
      match ring.similarity with
      | some s => max baseConf s
      | none => baseConf
    else baseConf
  pyRound 3 (min (max baseConf 0) 1)

/-- One element of the `fraud_rings` output list. -/
structure FraudRingOut where
  ring_id : ℕ
  member_accounts : List Account
  pattern_type : Pat
  risk_score : ℚ
  confidence : ℚ
deriving Repr, DecidableEq

/-- `fraud_rings` of `format_output`: one record per ring, then a stable
sort by `risk_score` descending (Python's stable `sort(reverse=True)` =
stable sort by the negated key). -/
def formatFraudRings (rings : List FRing) : List FraudRingOut :=
  pySortBy (fun r => -r.risk_score)
    (rings.map (fun ring =>
      { ring_id := ring.ring_id, member_accounts := ring.members,
        pattern_type := ring.pattern, risk_score := riskScore ring,
        confidence := confidenceScore ring }))

/-- One element of the `suspicious_accounts` output list
(`ring_id = none` renders as `"UNASSIGNED"`; `risk_explanation` omitted as
in `ScoreEntry`). -/
structure SuspiciousOut where
  account_id : Account
  suspicion_score : ℚ
  detected_patterns : List Pat
  ring_id : Option ℕ
deriving Repr, DecidableEq

/-- `suspicious_accounts` of `format_output`: skip entries with
`score <= 0`, take the first ring id as primary, stable-sort by score
descending. NOTE the filter the source applies is `score <= 0` — the
config constant `MIN_SUSPICION_SCORE` is never consulted. -/
def formatSuspicious (accountScores : AccMap) : List SuspiciousOut :=
  pySortBy (fun s => -s.suspicion_score)
    (accountScores.filterMap (fun p =>
      if p.2.score ≤ 0 then none
      else some { account_id := p.1, suspicion_score := p.2.score,
                  detected_patterns := p.2.patterns,
                  ring_id := p.2.ring_ids.head? }))

/-! ### Shared helper lemmas -/

theorem mem_stableInsert [LinearOrder β] (key : α → β) (x a : α) (l : List α) :
    a ∈ stableInsert key x l ↔ a = x ∨ a ∈ l := by
  induction l with
  | nil => simp [stableInsert]
  | cons b t ih =>
    simp only [stableInsert]
    split_ifs with h
    · rw [List.mem_cons, ih, List.mem_cons]; tauto
    · simp only [List.mem_cons]

theorem mem_pySortBy [LinearOrder β] (key : α → β) (l : List α) (a : α) :
    a ∈ pySortBy key l ↔ a ∈ l := by
  suffices h : ∀ acc : List α, a ∈ l.foldl (fun acc a => stableInsert key a acc) acc ↔
      a ∈ acc ∨ a ∈ l by
    have := h []
    simpa [pySortBy] using this
  induction l with
  | nil => intro acc; simp
  | cons b t ih =>
    intro acc
    simp only [List.foldl, ih, mem_stableInsert, List.mem_cons]
    tauto

theorem mem_pySorted [LinearOrder α] (l : List α) (a : α) :
    a ∈ pySorted l ↔ a ∈ l := mem_pySortBy id l a

theorem mem_dedupKeepFirst [DecidableEq α] (l : List α) (a : α) :
    a ∈ dedupKeepFirst l ↔ a ∈ l := by
  generalize hn : l.length = n
  induction n using Nat.strong_induction_on generalizing l with
  | _ n ih =>
    cases l with
    | nil => simp [dedupKeepFirst]
    | cons b t =>
      rw [dedupKeepFirst]
      by_cases hab : a = b
      · subst hab; simp
      · simp only [List.mem_cons, hab, false_or]
        have hlen : (t.filter (· ≠ b)).length < n := by
          subst hn
          simp only [List.length_cons]
          exact Nat.lt_succ_of_le (List.length_filter_le _ _)
        rw [ih _ hlen _ rfl]
        simp only [List.mem_filter, decide_eq_true_eq]
        constructor
        · exact fun h => h.1
        · exact fun h => ⟨h, by simpa using hab⟩

theorem mem_groupKeys (col : List Account) (a : Account) :
    a ∈ groupKeys col ↔ a ∈ col := by
  rw [groupKeys, mem_pySorted, mem_dedupKeepFirst]

/-! ### Claim C2 -/

/-- A failing input for C2: account 1 sends three transactions of 9500
(inside the structuring band) to account 2 within two hours. The only
scoring contribution is the structuring bonus of 15 < 20. -/
def dfC2 : List Tx :=
  [{ sender := 1, receiver := 2, amount := 9500, timestamp := 0 },
   { sender := 1, receiver := 2, amount := 9500, timestamp := 3600 },
   { sender := 1, receiver := 2, amount := 9500, timestamp := 7200 }]

/-- C2: the claim says accounts with finalized score below
`MIN_SUSPICION_SCORE` (20.0) are not emitted in `suspicious_accounts`.
The code's only filter is `score <= 0` (`formatter.py` line 228) and the
config constant is never consulted anywhere: on `dfC2` account 1 ends with
score 15 < 20 yet IS emitted. -/
theorem C2_suspicious_filter_ignores_min_score :
    formatSuspicious (calculateScores [] dfC2 [] [] [] (detectStructuring dfC2)) =
      [{ account_id := 1, suspicion_score := 15,
         detected_patterns := [.structuring], ring_id := none }] ∧
    (15 : ℚ) < Config.MIN_SUSPICION_SCORE := by
  constructor
  · norm_num [dfC2, detectStructuring, calculateScores, velocityAccounts,
      scoreRingsStep, mapUpd, addPat, formatSuspicious, groupKeys,
      dedupKeepFirst, pySorted, pySortBy, stableInsert, pyMax, pyMin,
      pyRound, pyRoundInt, Pat.idx, Config.STRUCTURING_THRESHOLD,
      Config.STRUCTURING_MARGIN, Config.STRUCTURING_MIN_TX,
      Config.SCORE_STRUCTURING, Config.HIGH_VELOCITY_TX_PER_DAY,
      List.filter, List.filterMap, List.foldl, List.countP_cons,
      List.countP_nil, decide_eq_true_eq]
  · norm_num [Config.MIN_SUSPICION_SCORE]

/-! ### Claim C3 -/

/-- Modelled from the spec's words, for comparison with the source's
`_should_merge` call: the overlap test of the merge pass applied to "the
absorbing group's running member set" instead of the seed ring's original
members. -/
def specOverlapOK (running : List Account) (b : FRing) : Prop :=
  let setA := dedupKeepFirst running
  let setB := dedupKeepFirst b.members
  let overlap := (setA.filter (fun x => x ∈ setB)).length
  let smaller := min setA.length setB.length
  smaller ≠ 0 ∧ (1 : ℚ)/2 ≤ (overlap : ℚ) / smaller

instance (running : List Account) (b : FRing) : Decidable (specOverlapOK running b) := by
  unfold specOverlapOK; infer_instance

/-- Modelled from the spec: one left-to-right pass in which the absorbing
group's running member set grows as rings are absorbed and later rings are
tested against the grown set. Returns the running members, the collected
patterns, and the rings left unabsorbed. -/
def mergeRingsSpecPass (running : List Account) (pats : List Pat) :
    List FRing → List Account × List Pat × List FRing
  | [] => (running, pats, [])
  | s :: rest =>
    if specOverlapOK running s then
      mergeRingsSpecPass (running ++ s.members) (pats ++ [s.pattern]) rest
    else
      let res := mergeRingsSpecPass running pats rest
      (res.1, res.2.1, s :: res.2.2)

theorem mergeRingsSpecPass_length (running : List Account) (pats : List Pat)
    (l : List FRing) : (mergeRingsSpecPass running pats l).2.2.length ≤ l.length := by
  induction l generalizing running pats with
  | nil => simp [mergeRingsSpecPass]
  | cons s rest ih =>
    simp only [mergeRingsSpecPass]
    split_ifs
    · exact le_trans (ih _ _) (Nat.le_succ _)
    · simpa using Nat.succ_le_succ (ih running pats)

/-- Modelled from the spec: the merge pass with the overlap checked against
the running member set (the reading C3 asserts of the code). -/
def mergeRingsSpec : List FRing → List FRing
  | [] => []
  | r :: rest =>
    let res := mergeRingsSpecPass r.members [r.pattern] rest
    let pats := dedupKeepFirst res.2.1
    { r with
      members := pySorted (dedupKeepFirst res.1),
      pattern := primaryPattern pats r.pattern,
      merged_patterns := pySortBy Pat.idx pats } :: mergeRingsSpec res.2.2
termination_by rings => rings.length
decreasing_by
  simp only [List.length_cons]
  exact Nat.lt_succ_of_le (mergeRingsSpecPass_length _ _ _)

/-- Three rings exhibiting the difference: `{1,2}`, `{2,3}`, `{3,4}`. -/
def ringC3a : FRing := { members := [1, 2], pattern := .round_trip }
def ringC3b : FRing := { members := [2, 3], pattern := .round_trip }
def ringC3c : FRing := { members := [3, 4], pattern := .round_trip }

/-- C3 counterexample: the source's `_merge_rings` tests each later ring
against the SEED's original members (`current["members"]` is reassigned
only after the inner loop), so `{3,4}` — which overlaps the running union
`{1,2,3}` at ratio 1/2 but the seed `{1,2}` not at all — is NOT absorbed,
while the running-member-set semantics the claim states would absorb it. -/
theorem C3_merge_counterexample :
    (mergeRings [ringC3a, ringC3b, ringC3c]).map (fun r => r.members) =
      [[1, 2, 3], [3, 4]] ∧
    (mergeRingsSpec [ringC3a, ringC3b, ringC3c]).map (fun r => r.members) =
      [[1, 2, 3, 4]] := by
  constructor
  · norm_num [mergeRings, mergeGroup, shouldMerge, primaryPattern,
      ringC3a, ringC3b, ringC3c, dedupKeepFirst, pySorted, pySortBy,
      stableInsert, List.filter, List.foldl, Pat.idx]
  · norm_num [mergeRingsSpec, mergeRingsSpecPass, specOverlapOK,
      primaryPattern, ringC3a, ringC3b, ringC3c, dedupKeepFirst, pySorted,
      pySortBy, stableInsert, List.filter, List.foldl, Pat.idx]

/-- C3 amended: in the single left-to-right merge pass, each unused seed
ring absorbs every later unused ring whose overlap — shared members over
the smaller ring's size, threshold 0.5 — is computed against the SEED
ring's original member set (not the running union): such rings' members
and pattern end up in the pass's merged group, and rings failing the
seed-overlap test are left, in order, for later passes. -/
theorem C3_merge_checks_seed_only (r s : FRing) (rest : List FRing)
    (hs : s ∈ rest) :
    (shouldMerge r s →
      ∃ g tl, mergeRings (r :: rest) = g :: tl ∧
        (∀ x ∈ s.members, x ∈ g.members) ∧ s.pattern ∈ g.merged_patterns) ∧
    (¬ shouldMerge r s →
      mergeRings (r :: rest) =
        mergeGroup r (rest.filter (fun t => decide (shouldMerge r t))) ::
          mergeRings (rest.filter (fun t => ¬ decide (shouldMerge r t))) ∧
      s ∈ rest.filter (fun t => ¬ decide (shouldMerge r t))) := by
  constructor
  · intro h
    refine ⟨mergeGroup r (rest.filter (fun t => decide (shouldMerge r t))),
      mergeRings (rest.filter (fun t => ¬ decide (shouldMerge r t))), by
        rw [mergeRings], ?_, ?_⟩
    · intro x hx
      simp only [mergeGroup, mem_pySorted, mem_dedupKeepFirst, List.mem_append]
      right
      simp only [List.mem_flatten, List.mem_map]
      exact ⟨s.members, ⟨s, List.mem_filter.mpr ⟨hs, by simpa using h⟩, rfl⟩, hx⟩
    · simp only [mergeGroup, mem_pySortBy, mem_dedupKeepFirst, List.mem_cons]
      right
      exact List.mem_map.mpr ⟨s, List.mem_filter.mpr ⟨hs, by simpa using h⟩, rfl⟩
  · intro h
    exact ⟨by rw [mergeRings], List.mem_filter.mpr ⟨hs, by simpa using h⟩⟩

/-- Witness for `C3_merge_checks_seed_only` at the concrete rings. -/
theorem C3_merge_checks_seed_only_witness :
    (ringC3b ∈ [ringC3b, ringC3c] ∧ shouldMerge ringC3a ringC3b) ∧
    (∃ g tl, mergeRings [ringC3a, ringC3b, ringC3c] = g :: tl ∧
      (∀ x ∈ ringC3b.members, x ∈ g.members) ∧
      ringC3b.pattern ∈ g.merged_patterns) := by
  have hmem : ringC3b ∈ [ringC3b, ringC3c] := List.mem_cons_self _ _
  have hsm : shouldMerge ringC3a ringC3b := by
    norm_num [shouldMerge, ringC3a, ringC3b, dedupKeepFirst, List.filter]
  exact ⟨⟨hmem, hsm⟩,
    (C3_merge_checks_seed_only ringC3a ringC3b [ringC3b, ringC3c] hmem).1 hsm⟩

/-! ### Claim C4 -/

theorem ringMemberUpd_rid_self (ring : FRing) (acc : Account) (e : ScoreEntry) :
    ring.ring_id ∈ (ringMemberUpd ring acc e).ring_ids := by
  simp only [ringMemberUpd, addPat]
  split_ifs <;> simp_all

theorem ringMemberUpd_rid_mono (ring : FRing) (acc : Account) (e : ScoreEntry) :
    e.ring_ids ⊆ (ringMemberUpd ring acc e).ring_ids := by
  simp only [ringMemberUpd, addPat]
  split_ifs <;> intro i hi <;> simp_all

/-- Tracking predicate: the map holds an entry for `a` whose ring id list
contains `i`. -/
def HasRid (a : Account) (i : ℕ) (m : AccMap) : Prop :=
  ∃ e, (a, e) ∈ m ∧ i ∈ e.ring_ids

theorem hasRid_mapUpd_self {a : Account} {i : ℕ} (m : AccMap)
    (f : ScoreEntry → ScoreEntry) (hf : ∀ e, i ∈ (f e).ring_ids) :
    HasRid a i (mapUpd m a f) := by
  unfold mapUpd
  split_ifs with h
  · rcases List.any_eq_true.mp h with ⟨p, hp, hpa⟩
    have hpa' : p.1 = a := by simpa using hpa
    refine ⟨f p.2, List.mem_map.mpr ⟨p, hp, ?_⟩, hf p.2⟩
    rw [if_pos hpa', hpa']
  · exact ⟨f {}, by simp, hf {}⟩

theorem hasRid_mapUpd {a : Account} {i : ℕ} {m : AccMap} (acc : Account)
    (f : ScoreEntry → ScoreEntry) (hf : ∀ e, e.ring_ids ⊆ (f e).ring_ids)
    (h : HasRid a i m) : HasRid a i (mapUpd m acc f) := by
  obtain ⟨e, he, hi⟩ := h
  unfold mapUpd
  split_ifs with hany
  · by_cases hax : a = acc
    · subst hax
      exact ⟨f e, List.mem_map.mpr ⟨(a, e), he, by simp⟩, hf e hi⟩
    · refine ⟨e, List.mem_map.mpr ⟨(a, e), he, ?_⟩, hi⟩
      simp [hax]
  · exact ⟨e, List.mem_append_left _ he, hi⟩

theorem hasRid_map {a : Account} {i : ℕ} {m : AccMap}
    (F : Account × ScoreEntry → Account × ScoreEntry)
    (hF : ∀ p, (F p).1 = p.1 ∧ p.2.ring_ids ⊆ (F p).2.ring_ids)
    (h : HasRid a i m) : HasRid a i (m.map F) := by
  obtain ⟨e, he, hi⟩ := h
  refine ⟨(F (a, e)).2, ?_, (hF (a, e)).2 hi⟩
  have : F (a, e) = ((F (a, e)).1, (F (a, e)).2) := rfl
  rw [(hF (a, e)).1] at this
  exact this ▸ List.mem_map.mpr ⟨(a, e), he, this.symm ▸ rfl⟩

theorem hasRid_foldl {γ : Type} {a : Account} {i : ℕ}
    (step : AccMap → γ → AccMap) (l : List γ)
    (hstep : ∀ m g, HasRid a i m → HasRid a i (step m g)) :
    ∀ m, HasRid a i m → HasRid a i (l.foldl step m) := by
  induction l with
  | nil => intro m h; simpa using h
  | cons g t ih => intro m h; exact ih (step m g) (hstep m g h)

theorem hasRid_memberFold {a : Account} (ring : FRing) (members : List Account)
    (ha : a ∈ members) (m : AccMap) :
    HasRid a ring.ring_id
      (members.foldl (fun m acc => mapUpd m acc (ringMemberUpd ring acc)) m) := by
  induction members generalizing m with
  | nil => simp at ha
  | cons b t ih =>
    rcases List.mem_cons.mp ha with rfl | ha
    · by_cases hta : a ∈ t
      · exact ih hta _
      · simp only [List.foldl]
        refine hasRid_foldl _ t
          (fun m g h => hasRid_mapUpd g _ (ringMemberUpd_rid_mono ring g) h) _ ?_
        exact hasRid_mapUpd_self m _ (fun e => ringMemberUpd_rid_self ring a e)
    · exact ih ha _

theorem hasRid_memberFold_mono {a : Account} {i : ℕ} (ring : FRing)
    (members : List Account) (m : AccMap) (h : HasRid a i m) :
    HasRid a i
      (members.foldl (fun m acc => mapUpd m acc (ringMemberUpd ring acc)) m) :=
  hasRid_foldl _ members
    (fun _ g h => hasRid_mapUpd g _ (ringMemberUpd_rid_mono ring g) h) m h

theorem hasRid_scoreRingsStep {a : Account} (rings : List FRing) (r : FRing)
    (hr : r ∈ rings) (ha : a ∈ r.members) (m : AccMap) :
    HasRid a r.ring_id (scoreRingsStep rings m) := by
  induction rings generalizing m with
  | nil => simp at hr
  | cons r0 rest ih =>
    rcases List.mem_cons.mp hr with rfl | hr
    · by_cases hrr : r ∈ rest
      · exact ih hrr _
      · unfold scoreRingsStep
        simp only [List.foldl]
        refine hasRid_foldl _ rest (fun m g h => hasRid_memberFold_mono g _ m h) _ ?_
        exact hasRid_memberFold r r.members ha m
    · exact ih hr _

theorem addPat_ring_ids (p : Pat) (e : ScoreEntry) :
    (addPat p e).ring_ids = e.ring_ids := by
  unfold addPat; split_ifs <;> rfl

theorem addPat_score (p : Pat) (e : ScoreEntry) :
    (addPat p e).score = e.score := by
  unfold addPat; split_ifs <;> rfl

theorem addPat_mem (p : Pat) (e : ScoreEntry) : p ∈ (addPat p e).patterns := by
  unfold addPat; split_ifs with h
  · exact h
  · simp

theorem addPat_patterns_mono (p q : Pat) (e : ScoreEntry)
    (h : q ∈ e.patterns) : q ∈ (addPat p e).patterns := by
  unfold addPat; split_ifs <;> simp [h]

theorem hasRid_scoreMultiRing {a : Account} {i : ℕ} {m : AccMap}
    (h : HasRid a i m) : HasRid a i (scoreMultiRing m) := by
  unfold scoreMultiRing
  refine hasRid_map _ (fun p => ?_) h
  constructor
  · dsimp only
    split_ifs <;> rfl
  · dsimp only
    split_ifs <;> simp [addPat_ring_ids]

theorem hasRid_scoreVelocity {a : Account} {i : ℕ} (vel : List Account)
    {m : AccMap} (h : HasRid a i m) : HasRid a i (scoreVelocity vel m) :=
  hasRid_foldl _ vel (fun _ g h =>
    hasRid_mapUpd g _ (fun e => by simp [addPat_ring_ids]) h) m h

theorem hasRid_scoreCentrality {a : Account} {i : ℕ}
    (cent : List (Account × ℚ)) {m : AccMap} (h : HasRid a i m) :
    HasRid a i (scoreCentrality cent m) := by
  unfold scoreCentrality
  split_ifs
  · refine hasRid_foldl _ cent (fun m g h => ?_) _ h
    by_cases hq : (List.any m fun q => q.1 == g.1) = true
    · rw [if_pos hq]
      refine hasRid_map _ (fun p => ?_) h
      constructor
      · split_ifs <;> rfl
      · split_ifs <;> simp
    · rw [if_neg hq]
      exact h
  · exact h

theorem hasRid_scoreAnomaly {a : Account} {i : ℕ} (anom : List Account)
    {m : AccMap} (h : HasRid a i m) : HasRid a i (scoreAnomaly anom m) :=
  hasRid_foldl _ anom (fun _ g h =>
    hasRid_mapUpd g _ (fun e => by simp [addPat_ring_ids]) h) m h

theorem hasRid_scoreRapid {a : Account} {i : ℕ}
    (rapid : List (Account × ℚ × ℕ)) {m : AccMap} (h : HasRid a i m) :
    HasRid a i (scoreRapid rapid m) :=
  hasRid_foldl _ rapid (fun _ g h =>
    hasRid_mapUpd g.1 _ (fun e => by simp [addPat_ring_ids]) h) m h

theorem hasRid_scoreStructuring {a : Account} {i : ℕ}
    (struct : List (Account × ℕ × ℚ)) {m : AccMap} (h : HasRid a i m) :
    HasRid a i (scoreStructuring struct m) :=
  hasRid_foldl _ struct (fun _ g h =>
    hasRid_mapUpd g.1 _ (fun e => by simp [addPat_ring_ids]) h) m h

theorem hasRid_scoreFinalize {a : Account} {i : ℕ} {m : AccMap}
    (h : HasRid a i m) : HasRid a i (scoreFinalize m) := by
  unfold scoreFinalize
  exact hasRid_map _ (fun p => ⟨rfl, by simp⟩) h

theorem hasRid_calculateScores {a : Account} (rings : List FRing) (df : List Tx)
    (cent : List (Account × ℚ)) (anom : List Account)
    (rapid : List (Account × ℚ × ℕ)) (struct : List (Account × ℕ × ℚ))
    (r : FRing) (hr : r ∈ rings) (ha : a ∈ r.members) :
    HasRid a r.ring_id (calculateScores rings df cent anom rapid struct) := by
  unfold calculateScores
  exact hasRid_scoreFinalize (hasRid_scoreStructuring struct
    (hasRid_scoreRapid rapid (hasRid_scoreAnomaly anom
      (hasRid_scoreCentrality cent (hasRid_scoreVelocity (velocityAccounts df)
        (hasRid_scoreMultiRing (hasRid_scoreRingsStep rings r hr ha [])))))))

theorem addPat_patterns (p : Pat) (e : ScoreEntry) :
    (addPat p e).patterns =
      if p ∈ e.patterns then e.patterns else e.patterns ++ [p] := by
  unfold addPat; split_ifs <;> rfl

/-- C4: for a `fan_in`/`fan_out` ring, every member has the ring's id
recorded in its `ring_ids`, but the per-ring update adds the base score
(28) and the pattern label to the hub only; a spoke's score and label set
pass through this ring's update unchanged. -/
theorem C4_fan_hub_only_scored (rings : List FRing) (df : List Tx)
    (cent : List (Account × ℚ)) (anom : List Account)
    (rapid : List (Account × ℚ × ℕ)) (struct : List (Account × ℕ × ℚ))
    (r : FRing) (hr : r ∈ rings)
    (hp : r.pattern = .fan_in ∨ r.pattern = .fan_out)
    (hub : Account) (hhub : r.hub = some hub)
    (a : Account) (ha : a ∈ r.members) :
    (∃ e, (a, e) ∈ calculateScores rings df cent anom rapid struct ∧
      r.ring_id ∈ e.ring_ids) ∧
    patternScore r.pattern = 28 ∧
    (∀ e : ScoreEntry,
      (ringMemberUpd r a e).score =
        e.score + (if a = hub then patternScore r.pattern else 0) ∧
      (ringMemberUpd r a e).patterns =
        (if a = hub then (addPat r.pattern e).patterns else e.patterns) ∧
      (ringMemberUpd r a e).ring_ids =
        (if r.ring_id ∈ e.ring_ids then e.ring_ids else e.ring_ids ++ [r.ring_id])) := by
  refine ⟨hasRid_calculateScores rings df cent anom rapid struct r hr ha, ?_, ?_⟩
  · rcases hp with h | h <;>
      simp [h, patternScore, Config.SCORE_FAN_IN, Config.SCORE_FAN_OUT]
  · intro e
    simp only [ringMemberUpd, hhub, Option.some.injEq, if_pos hp]
    split_ifs with h1 h2 <;>
      simp_all [addPat_score, addPat_patterns, addPat_ring_ids]

/-- The fan-in ring used to witness C4 (hub 9, spoke 5). -/
def fanRingC4 : FRing :=
  { members := [5, 9], pattern := .fan_in, hub := some 9,
    hub_type := some .aggregator, ring_id := 1 }

/-- Witness for `C4_fan_hub_only_scored` at the concrete fan-in ring,
viewed from the spoke account 5. -/
theorem C4_fan_hub_only_scored_witness :
    (fanRingC4 ∈ [fanRingC4] ∧
      (fanRingC4.pattern = .fan_in ∨ fanRingC4.pattern = .fan_out) ∧
      fanRingC4.hub = some 9 ∧ (5 : Account) ∈ fanRingC4.members) ∧
    ((∃ e, (5, e) ∈ calculateScores [fanRingC4] [] [] [] [] [] ∧
        fanRingC4.ring_id ∈ e.ring_ids) ∧
      patternScore fanRingC4.pattern = 28 ∧
      (∀ e : ScoreEntry,
        (ringMemberUpd fanRingC4 5 e).score =
          e.score + (if (5 : Account) = 9 then patternScore fanRingC4.pattern else 0) ∧
        (ringMemberUpd fanRingC4 5 e).patterns =
          (if (5 : Account) = 9 then (addPat fanRingC4.pattern e).patterns else e.patterns) ∧
        (ringMemberUpd fanRingC4 5 e).ring_ids =
          (if fanRingC4.ring_id ∈ e.ring_ids then e.ring_ids
           else e.ring_ids ++ [fanRingC4.ring_id]))) := by
  refine ⟨⟨List.mem_cons_self _ _, Or.inl rfl, rfl, by simp [fanRingC4]⟩, ?_⟩
  exact C4_fan_hub_only_scored [fanRingC4] [] [] [] [] [] fanRingC4
    (List.mem_cons_self _ _) (Or.inl rfl) 9 rfl 5 (by simp [fanRingC4])

/-! ### Claim C1 -/

/-- Invariant of the shell DFS state: every recorded ring lists exactly the
interior shells as its members (and carries the `shell_chain` pattern). -/
def ShellStOK (st : ShellSt) : Prop :=
  ∀ r ∈ st.rings, r.members = r.shell_intermediaries ∧ r.pattern = .shell_chain

theorem shellVisit_ok (sn : List Account) (path visited : List Account)
    (nbrs : List Account) (st : ShellSt) (h : ShellStOK st) :
    ShellStOK (shellVisit sn path visited nbrs st).1 := by
  induction nbrs generalizing st with
  | nil => simpa [shellVisit] using h
  | cons nbr rest ih =>
    simp only [shellVisit]
    split_ifs with h1 h2 h3
    · exact ih st h
    all_goals
      refine ih _ (fun r hr => ?_)
    all_goals
      first
      | exact h r hr
      | · rcases List.mem_append.mp hr with hr | hr
          · exact h r hr
          · simp only [List.mem_singleton] at hr
            subst hr
            exact ⟨rfl, rfl⟩

theorem shellWhile_ok (sn : List Account) (gsucc : Account → List Account)
    (fuel : ℕ) (stack : List (List Account × List Account)) (st : ShellSt)
    (h : ShellStOK st) : ShellStOK (shellWhile sn gsucc fuel stack st) := by
  induction fuel generalizing stack st with
  | zero => simpa [shellWhile] using h
  | succ fuel ih =>
    match stack with
    | [] => simpa [shellWhile] using h
    | (path, visited) :: stack =>
      simp only [shellWhile]
      split_ifs
      · exact h
      · exact ih _ _ (shellVisit_ok sn path visited _ st h)

theorem shellSources_ok (sn : List Account) (gsucc : Account → List Account)
    (fuel : ℕ) (sources : List Account) (st : ShellSt) (h : ShellStOK st) :
    ShellStOK (shellSources sn gsucc fuel sources st) := by
  induction sources generalizing st with
  | nil => simpa [shellSources] using h
  | cons s rest ih =>
    simp only [shellSources]
    split_ifs
    · exact h
    · exact ih _ (shellWhile_ok sn gsucc fuel _ st h)

theorem keys_mapUpd (m : AccMap) (acc : Account) (f : ScoreEntry → ScoreEntry)
    (x : Account) (hx : x ∈ (mapUpd m acc f).map (fun p => p.1)) :
    x = acc ∨ x ∈ m.map (fun p => p.1) := by
  unfold mapUpd at hx
  split_ifs at hx with h
  · right
    rcases List.mem_map.mp hx with ⟨p, hp, hpe⟩
    rcases List.mem_map.mp hp with ⟨q, hq, hqe⟩
    refine List.mem_map.mpr ⟨q, hq, ?_⟩
    rw [← hpe, ← hqe]
    split_ifs with hqa <;> simp [hqa]
  · rcases List.mem_map.mp hx with ⟨p, hp, hpe⟩
    rcases List.mem_append.mp hp with hp | hp
    · exact Or.inr (List.mem_map.mpr ⟨p, hp, hpe⟩)
    · simp only [List.mem_singleton] at hp
      subst hp
      exact Or.inl hpe.symm

theorem keys_memberFold (ring : FRing) (members : List Account) (m : AccMap)
    (x : Account)
    (hx : x ∈ (members.foldl (fun m acc => mapUpd m acc (ringMemberUpd ring acc)) m).map
      (fun p => p.1)) :
    x ∈ members ∨ x ∈ m.map (fun p => p.1) := by
  induction members generalizing m with
  | nil => exact Or.inr hx
  | cons b t ih =>
    simp only [List.foldl] at hx
    rcases ih _ hx with h | h
    · exact Or.inl (List.mem_cons_of_mem b h)
    · rcases keys_mapUpd m b _ x h with h | h
      · exact Or.inl (h ▸ List.mem_cons_self b t)
      · exact Or.inr h

theorem scoreRingsStep_cons (r : FRing) (rest : List FRing) (m : AccMap) :
    scoreRingsStep (r :: rest) m =
      scoreRingsStep rest
        (r.members.foldl (fun m acc => mapUpd m acc (ringMemberUpd r acc)) m) := rfl

theorem keys_scoreRingsStep (rings : List FRing) (m : AccMap) (x : Account)
    (hx : x ∈ (scoreRingsStep rings m).map (fun p => p.1)) :
    (∃ s ∈ rings, x ∈ s.members) ∨ x ∈ m.map (fun p => p.1) := by
  induction rings generalizing m with
  | nil => exact Or.inr hx
  | cons r rest ih =>
    rw [scoreRingsStep_cons] at hx
    rcases ih _ hx with ⟨s, hs, hxs⟩ | h
    · exact Or.inl ⟨s, List.mem_cons_of_mem r hs, hxs⟩
    · rcases keys_memberFold r r.members m x h with h | h
      · exact Or.inl ⟨r, List.mem_cons_self r rest, h⟩
      · exact Or.inr h

/-- C1 amended: a detected shell chain's emitted members are EXACTLY the
interior shells (`members = shell_intermediaries`); the scorer gives each
of them the full shell score (22) and the `shell_chain` label, while an
account that is a member of no ring — in particular the chain's source and
destination — gets no entry at all from the ring step, hence neither the
half score (11) nor any label. -/
theorem C1_shell_interiors_full_score (gv : GraphView) (fuel : ℕ) (r : FRing)
    (hr : r ∈ detectShellNetworks gv fuel) :
    r.members = r.shell_intermediaries ∧ r.pattern = .shell_chain ∧
    (∀ a ∈ r.members, ∀ e : ScoreEntry,
      (ringMemberUpd r a e).score = e.score + Config.SCORE_SHELL ∧
      Pat.shell_chain ∈ (ringMemberUpd r a e).patterns) ∧
    (∀ (rings : List FRing) (a : Account), (∀ s ∈ rings, a ∉ s.members) →
      ∀ p ∈ scoreRingsStep rings [], p.1 ≠ a) := by
  have hok : ShellStOK (⟨[], [], 0⟩ : ShellSt) := by intro r hr; simp at hr
  have hmain : r.members = r.shell_intermediaries ∧ r.pattern = .shell_chain := by
    simp only [detectShellNetworks] at hr
    split_ifs at hr with h
    · simp at hr
    · exact shellSources_ok _ _ fuel _ _ hok r hr
  refine ⟨hmain.1, hmain.2, ?_, ?_⟩
  · intro a ha e
    have hint : a ∈ r.shell_intermediaries := hmain.1 ▸ ha
    unfold ringMemberUpd
    rw [hmain.2]
    split_ifs with h1 h2 h3 <;>
      simp_all [addPat_score, addPat_mem, patternScore, Config.SCORE_SHELL]
  · intro rings a hnot p hp hpa
    have : a ∈ (scoreRingsStep rings []).map (fun p => p.1) :=
      List.mem_map.mpr ⟨p, hp, hpa⟩
    rcases keys_scoreRingsStep rings [] a this with ⟨s, hs, hxs⟩ | h
    · exact hnot s hs hxs
    · simp at h

/-- The transaction table of the C1/C5-style shell scenario
`S → X → Y → D` (accounts 1 → 2 → 3 → 4): X and Y have exactly two
transactions each. -/
def dfC1 : List Tx :=
  [{ sender := 1, receiver := 2, amount := 100, timestamp := 0 },
   { sender := 2, receiver := 3, amount := 100, timestamp := 3600 },
   { sender := 3, receiver := 4, amount := 100, timestamp := 7200 }]

/-- `build_graph(dfC1)` as the shell detector sees it; the SCC list is the
decomposition of this acyclic 4-node path (all singletons). -/
def gvC1 : GraphView := buildGraphView dfC1 [1, 2, 3, 4] [[1], [2], [3], [4]]

/-- The single ring the shell detector finds on `gvC1`. -/
def shellRingC1 : FRing :=
  { members := [2, 3], pattern := .shell_chain, chain_length := some 3,
    shell_intermediaries := [2, 3] }

/-- `shellRingC1` after `assign_ring_ids` (single-ring merge, id 1). -/
def mergedRingC1 : FRing :=
  { members := [2, 3], pattern := .shell_chain, chain_length := some 3,
    shell_intermediaries := [2, 3], merged_patterns := [.shell_chain],
    ring_id := 1 }

/-- C1 counterexample: on the chain `1 → 2 → 3 → 4` the detected ring's
members are only the interiors `[2, 3]`, and after ring-id assignment and
scoring the source 1 and destination 4 have NO entry in the Scorer's map —
they do not receive the claimed half score of 11 (they receive nothing). -/
theorem C1_source_dest_receive_nothing :
    detectShellNetworks gvC1 12 = [shellRingC1] ∧
    (calculateScores (assignRingIds [] [] (detectShellNetworks gvC1 12) [] true)
        dfC1 [] [] [] []).map (fun p => p.1) = [2, 3] := by
  have hdet : detectShellNetworks gvC1 12 = [shellRingC1] := by
    repeat
      first
      | norm_num [List.cons_ne_nil, detectShellNetworks, shellSources, shellWhile, shellVisit,
          shellNodesOf, cycleNodesOf, buildGraphView, gvC1, dfC1, groupKeys,
          dedupKeepFirst, pySorted, pySortBy, stableInsert, shellRingC1,
          List.filter, List.foldl, List.countP_cons, List.countP_nil,
          decide_eq_true_eq, List.getLast!, List.getLast?, Config.SHELL_MAX_TX,
          Config.SHELL_MIN_CHAIN, Config.SHELL_MAX_CHAIN, Config.MAX_SHELL_CHAINS]
      | simp [detectShellNetworks, shellSources, shellWhile, shellVisit,
          shellNodesOf, cycleNodesOf, buildGraphView, gvC1, dfC1, groupKeys,
          dedupKeepFirst, pySorted, pySortBy, stableInsert, shellRingC1,
          List.filter, List.foldl, List.countP_cons, List.countP_nil,
          decide_eq_true_eq, List.getLast!, List.getLast?, Config.SHELL_MAX_TX,
          Config.SHELL_MIN_CHAIN, Config.SHELL_MAX_CHAIN, Config.MAX_SHELL_CHAINS]
  refine ⟨hdet, ?_⟩
  rw [hdet]
  have hassign : assignRingIds [] [] [shellRingC1] [] true = [mergedRingC1] := by
    norm_num [assignRingIds, mergeRings, mergeGroup, shouldMerge,
      primaryPattern, shellRingC1, mergedRingC1, dedupKeepFirst, pySorted,
      pySortBy, stableInsert, List.enum, List.enumFrom, Pat.idx, List.filter]
    simp
  have hvel : velocityAccounts dfC1 = [] := by
    norm_num [velocityAccounts, dfC1, dedupKeepFirst, pySorted, pySortBy,
      stableInsert, pyMax, pyMin, List.countP_cons, List.countP_nil,
      List.filter, Config.HIGH_VELOCITY_TX_PER_DAY, decide_eq_true_eq]
  have hstep1 : scoreRingsStep [mergedRingC1] [] =
      [(2, { score := 22, patterns := [.shell_chain], ring_ids := [1] }),
       (3, { score := 22, patterns := [.shell_chain], ring_ids := [1] })] := by
    norm_num [scoreRingsStep, mergedRingC1, mapUpd, addPat, ringMemberUpd,
      patternScore, Config.SCORE_SHELL, List.foldl]
    simp
  rw [hassign]
  unfold calculateScores
  rw [hvel, hstep1]
  norm_num [scoreMultiRing, scoreVelocity, scoreCentrality, scoreAnomaly,
    scoreRapid, scoreStructuring, scoreFinalize, mapUpd, addPat, pyRound,
    pyRoundInt, pySortBy, stableInsert, Pat.idx, List.foldl]

/-- Witness for `C1_shell_interiors_full_score` at the concrete graph. -/
theorem C1_shell_interiors_full_score_witness :
    shellRingC1 ∈ detectShellNetworks gvC1 12 ∧
    (shellRingC1.members = shellRingC1.shell_intermediaries ∧
      shellRingC1.pattern = .shell_chain ∧
      (∀ a ∈ shellRingC1.members, ∀ e : ScoreEntry,
        (ringMemberUpd shellRingC1 a e).score = e.score + Config.SCORE_SHELL ∧
        Pat.shell_chain ∈ (ringMemberUpd shellRingC1 a e).patterns) ∧
      (∀ (rings : List FRing) (a : Account), (∀ s ∈ rings, a ∉ s.members) →
        ∀ p ∈ scoreRingsStep rings [], p.1 ≠ a)) := by
  have hdet : detectShellNetworks gvC1 12 = [shellRingC1] := by
    repeat
      first
      | norm_num [List.cons_ne_nil, detectShellNetworks, shellSources, shellWhile, shellVisit,
          shellNodesOf, cycleNodesOf, buildGraphView, gvC1, dfC1, groupKeys,
          dedupKeepFirst, pySorted, pySortBy, stableInsert, shellRingC1,
          List.filter, List.foldl, List.countP_cons, List.countP_nil,
          decide_eq_true_eq, List.getLast!, List.getLast?, Config.SHELL_MAX_TX,
          Config.SHELL_MIN_CHAIN, Config.SHELL_MAX_CHAIN, Config.MAX_SHELL_CHAINS]
      | simp [detectShellNetworks, shellSources, shellWhile, shellVisit,
          shellNodesOf, cycleNodesOf, buildGraphView, gvC1, dfC1, groupKeys,
          dedupKeepFirst, pySorted, pySortBy, stableInsert, shellRingC1,
          List.filter, List.foldl, List.countP_cons, List.countP_nil,
          decide_eq_true_eq, List.getLast!, List.getLast?, Config.SHELL_MAX_TX,
          Config.SHELL_MIN_CHAIN, Config.SHELL_MAX_CHAIN, Config.MAX_SHELL_CHAINS]
  have hmem : shellRingC1 ∈ detectShellNetworks gvC1 12 := by
    rw [hdet]; exact List.mem_cons_self _ _
  exact ⟨hmem, C1_shell_interiors_full_score gvC1 12 shellRingC1 hmem⟩

/-! ### Claim C8 -/

theorem patternScore_nonneg (p : Pat) : 0 ≤ patternScore p := by
  cases p <;> norm_num [patternScore, Config.SCORE_CYCLE_3,
    Config.SCORE_CYCLE_4, Config.SCORE_CYCLE_5, Config.SCORE_FAN_IN,
    Config.SCORE_FAN_OUT, Config.SCORE_SHELL, Config.SCORE_ROUND_TRIP]

theorem ringMemberUpd_score_nonneg (ring : FRing) (acc : Account)
    (e : ScoreEntry) (h : 0 ≤ e.score) :
    0 ≤ (ringMemberUpd ring acc e).score := by
  have hp := patternScore_nonneg ring.pattern
  unfold ringMemberUpd
  split_ifs <;> simp only [addPat_score] <;> simp <;> linarith

/-- All entries of the scorer's map have a non-negative running score. -/
def NonnegMap (m : AccMap) : Prop := ∀ p ∈ m, 0 ≤ p.2.score

theorem nonneg_map_step {m : AccMap}
    (F : Account × ScoreEntry → Account × ScoreEntry)
    (hF : ∀ p, 0 ≤ p.2.score → 0 ≤ (F p).2.score)
    (h : NonnegMap m) : NonnegMap (m.map F) := by
  intro q hq
  rcases List.mem_map.mp hq with ⟨p, hp, rfl⟩
  exact hF p (h p hp)

theorem nonneg_mapUpd {m : AccMap} (acc : Account)
    (f : ScoreEntry → ScoreEntry) (hf : ∀ e, 0 ≤ e.score → 0 ≤ (f e).score)
    (h : NonnegMap m) : NonnegMap (mapUpd m acc f) := by
  unfold mapUpd
  split_ifs with hany
  · intro q hq
    rcases List.mem_map.mp hq with ⟨p, hp, rfl⟩
    split_ifs with hpa
    · exact hf p.2 (h p hp)
    · exact h p hp
  · intro q hq
    rcases List.mem_append.mp hq with hq | hq
    · exact h q hq
    · simp only [List.mem_singleton] at hq
      subst hq
      exact hf _ le_rfl

theorem nonneg_foldl {γ : Type} (step : AccMap → γ → AccMap) (l : List γ)
    (hstep : ∀ m g, g ∈ l → NonnegMap m → NonnegMap (step m g)) :
    ∀ m, NonnegMap m → NonnegMap (l.foldl step m) := by
  induction l with
  | nil => intro m h; simpa using h
  | cons g t ih =>
    intro m h
    exact ih (fun m g' hg' => hstep m g' (List.mem_cons_of_mem g hg'))
      (step m g) (hstep m g (List.mem_cons_self g t) h)

theorem nonneg_scoreRingsStep (rings : List FRing) (m : AccMap)
    (h : NonnegMap m) : NonnegMap (scoreRingsStep rings m) := by
  induction rings generalizing m with
  | nil => simpa [scoreRingsStep] using h
  | cons r rest ih =>
    rw [scoreRingsStep_cons]
    refine ih _ ?_
    refine nonneg_foldl _ r.members (fun m g _ hm => ?_) m h
    exact nonneg_mapUpd g _ (fun e he => ringMemberUpd_score_nonneg r g e he) hm

theorem nonneg_scoreMultiRing {m : AccMap} (h : NonnegMap m) :
    NonnegMap (scoreMultiRing m) := by
  unfold scoreMultiRing
  refine nonneg_map_step _ (fun p hp => ?_) h
  dsimp only
  split_ifs with hextra
  · simp only [addPat_score]
    have hcast : (0 : ℚ) ≤ ((p.2.ring_ids.length - 1 : ℕ) : ℚ) := Nat.cast_nonneg _
    simp only [Config.SCORE_MULTI_RING_BONUS]
    nlinarith
  · exact hp

theorem nonneg_scoreVelocity (vel : List Account) {m : AccMap}
    (h : NonnegMap m) : NonnegMap (scoreVelocity vel m) := by
  unfold scoreVelocity
  refine nonneg_foldl _ vel (fun m g _ hm =>
    nonneg_mapUpd g _ (fun e he => ?_) hm) _ h
  simp only [addPat_score, Config.SCORE_HIGH_VELOCITY]
  linarith

theorem nonneg_scoreCentrality (cent : List (Account × ℚ))
    (hc : ∀ p ∈ cent, 0 ≤ p.2) {m : AccMap} (h : NonnegMap m) :
    NonnegMap (scoreCentrality cent m) := by
  unfold scoreCentrality
  split_ifs
  · refine nonneg_foldl _ cent (fun m g hg hm => ?_) _ h
    by_cases hq : (List.any m fun q => q.1 == g.1) = true
    · rw [if_pos hq]
      refine nonneg_map_step _ (fun p hp => ?_) hm
      split_ifs with hpg hmx
      · have hg2 : 0 ≤ g.2 := hc g hg
        have hdiv : (0 : ℚ) ≤ g.2 / pyMax (cent.map (·.2)) :=
          div_nonneg hg2 (le_of_lt hmx)
        simp only [Config.SCORE_CENTRALITY_MAX]
        linarith
      · dsimp only
        linarith
      · exact hp
    · rw [if_neg hq]
      exact hm
  · exact h

theorem nonneg_scoreAnomaly (anom : List Account) {m : AccMap}
    (h : NonnegMap m) : NonnegMap (scoreAnomaly anom m) := by
  unfold scoreAnomaly
  refine nonneg_foldl _ anom (fun m g _ hm =>
    nonneg_mapUpd g _ (fun e he => ?_) hm) _ h
  simp only [addPat_score, Config.SCORE_AMOUNT_ANOMALY]
  linarith

theorem nonneg_scoreRapid (rapid : List (Account × ℚ × ℕ)) {m : AccMap}
    (h : NonnegMap m) : NonnegMap (scoreRapid rapid m) := by
  unfold scoreRapid
  refine nonneg_foldl _ rapid (fun m g _ hm =>
    nonneg_mapUpd g.1 _ (fun e he => ?_) hm) _ h
  simp only [addPat_score, Config.SCORE_RAPID_MOVEMENT]
  linarith

theorem nonneg_scoreStructuring (struct : List (Account × ℕ × ℚ)) {m : AccMap}
    (h : NonnegMap m) : NonnegMap (scoreStructuring struct m) := by
  unfold scoreStructuring
  refine nonneg_foldl _ struct (fun m g _ hm =>
    nonneg_mapUpd g.1 _ (fun e he => ?_) hm) _ h
  simp only [addPat_score, Config.SCORE_STRUCTURING]
  linarith

/-- C8: every account the Scorer outputs has a finalized suspicion score in
`[0, 100]`: every contribution (pattern base scores included) is
non-negative, and finalization takes `min(round(score, 1), 100.0)`. -/
theorem C8_scores_within_bounds (rings : List FRing) (df : List Tx)
    (cent : List (Account × ℚ)) (anom : List Account)
    (rapid : List (Account × ℚ × ℕ)) (struct : List (Account × ℕ × ℚ))
    (hc : ∀ p ∈ cent, 0 ≤ p.2) :
    (∀ q : Pat, 0 ≤ patternScore q) ∧
    ∀ p ∈ calculateScores rings df cent anom rapid struct,
      0 ≤ p.2.score ∧ p.2.score ≤ 100 := by
  refine ⟨patternScore_nonneg, ?_⟩
  have h7 : NonnegMap (scoreStructuring struct (scoreRapid rapid
      (scoreAnomaly anom (scoreCentrality cent (scoreVelocity (velocityAccounts df)
        (scoreMultiRing (scoreRingsStep rings []))))))) :=
    nonneg_scoreStructuring struct (nonneg_scoreRapid rapid
      (nonneg_scoreAnomaly anom (nonneg_scoreCentrality cent hc
        (nonneg_scoreVelocity (velocityAccounts df)
          (nonneg_scoreMultiRing
            (nonneg_scoreRingsStep rings [] (by intro p hp; simp at hp)))))))
  unfold calculateScores scoreFinalize
  intro p hp
  rcases List.mem_map.mp hp with ⟨q, hq, rfl⟩
  have hs : 0 ≤ q.2.score := h7 q hq
  constructor
  · exact le_min (pyRound_nonneg 1 hs) (by norm_num)
  · exact min_le_right _ _

/-- Witness for `C8_scores_within_bounds`: a cycle ring plus every bonus
source at once, with a concrete nonnegative centrality map. -/
theorem C8_scores_within_bounds_witness :
    (∀ p ∈ [((7 : Account), (1 : ℚ)/2)], 0 ≤ p.2) ∧
    ((∀ q : Pat, 0 ≤ patternScore q) ∧
      ∀ p ∈ calculateScores
          [{ members := [7, 8, 9], pattern := .cycle_length_3, ring_id := 1 }]
          dfC2 [((7 : Account), (1 : ℚ)/2)] [7] [(8, 5, 2)] [(9, 3, 9500)],
        0 ≤ p.2.score ∧ p.2.score ≤ 100) := by
  have hc : ∀ p ∈ [((7 : Account), (1 : ℚ)/2)], 0 ≤ p.2 := by
    intro p hp
    simp only [List.mem_singleton] at hp
    subst hp
    norm_num
  exact ⟨hc, C8_scores_within_bounds
    [{ members := [7, 8, 9], pattern := .cycle_length_3, ring_id := 1 }]
    dfC2 [((7 : Account), (1 : ℚ)/2)] [7] [(8, 5, 2)] [(9, 3, 9500)] hc⟩

/-! ### Claim C10 -/

/-- The counting condition of the inner scan, read off the loop guards:
the dwell `(t_out − t_in)/60` minutes is within `[0, RAPID_MOVEMENT_MINUTES]`
(both boundaries inclusive: the loop breaks only on `dwell >
RAPID_MOVEMENT_MINUTES` and counts on `dwell >= 0`). -/
def rapidPairPred (t o : ℚ) : Prop :=
  0 ≤ (o - t) / 60 ∧ (o - t) / 60 ≤ Config.RAPID_MOVEMENT_MINUTES

instance (t o : ℚ) : Decidable (rapidPairPred t o) := by
  unfold rapidPairPred; infer_instance

/-- Dwell times (minutes) of the counted pairs for one incoming time. -/
def dwellsFor (t : ℚ) (outs : List ℚ) : List ℚ :=
  (outs.filter (fun o => decide (rapidPairPred t o))).map (fun o => (o - t) / 60)

/-- All counted dwells of an account, in loop order. -/
def allDwells (ins outs : List ℚ) : List ℚ :=
  (ins.map (fun t => dwellsFor t outs)).flatten

theorem dwellsFor_dropWhile (t t' : ℚ) (h : t ≤ t') (outs : List ℚ) :
    dwellsFor t' (outs.dropWhile (fun o => decide (o < t))) = dwellsFor t' outs := by
  induction outs with
  | nil => rfl
  | cons o rest ih =>
    by_cases ho : o < t
    · have hpred : ¬ rapidPairPred t' o := by
        intro hp
        have h1 : (0 : ℚ) ≤ o - t' := by
          have := hp.1
          by_contra hneg
          push_neg at hneg
          have : (o - t') / 60 < 0 := div_neg_of_neg_of_pos hneg (by norm_num)
          linarith [hp.1]
        linarith
      rw [List.dropWhile_cons_of_pos (by simpa using ho), ih]
      unfold dwellsFor
      rw [List.filter_cons_of_neg (by simpa using hpred)]
    · rw [List.dropWhile_cons_of_neg (by simpa using ho)]

theorem scanOuts_spec (t : ℚ) (l : List ℚ) (hl : l.Sorted (· ≤ ·))
    (st : Option ℚ × ℕ) :
    scanOuts t l st =
      (List.foldl updateMin st.1 (dwellsFor t l), st.2 + (dwellsFor t l).length) := by
  induction l generalizing st with
  | nil => simp [scanOuts, dwellsFor]
  | cons o rest ih =>
    obtain ⟨hle, hrest⟩ := List.sorted_cons.mp hl
    obtain ⟨minD, cnt⟩ := st
    by_cases hbig : Config.RAPID_MOVEMENT_MINUTES < (o - t) / 60
    · have hpred : ¬ rapidPairPred t o := fun hp => absurd hp.2 (not_le.mpr hbig)
      have hrestnil : dwellsFor t rest = [] := by
        unfold dwellsFor
        rw [List.map_eq_nil_iff, List.filter_eq_nil_iff]
        intro o' ho'
        simp only [decide_eq_true_eq]
        intro hp
        have hoo : o ≤ o' := hle o' ho'
        have hdivle : (o - t) / 60 ≤ (o' - t) / 60 := by
          rw [div_le_div_iff_of_pos_right (by norm_num : (0:ℚ) < 60)]
          linarith
        exact absurd hp.2 (not_le.mpr (lt_of_lt_of_le hbig hdivle))
      unfold dwellsFor
      rw [List.filter_cons_of_neg (by simpa using hpred)]
      unfold scanOuts
      rw [if_pos hbig]
      unfold dwellsFor at hrestnil
      rw [hrestnil]
      simp
    · by_cases hzero : 0 ≤ (o - t) / 60
      · have hpred : rapidPairPred t o := ⟨hzero, not_lt.mp hbig⟩
        unfold dwellsFor
        rw [List.filter_cons_of_pos (by simpa using hpred)]
        unfold scanOuts
        rw [if_neg hbig, if_pos hzero]
        rw [ih hrest (updateMin minD ((o - t) / 60), cnt + 1)]
        unfold dwellsFor
        simp only [List.map_cons, List.foldl_cons, List.length_cons, Prod.mk.injEq]
        exact ⟨by trivial, by omega⟩
      · have hpred : ¬ rapidPairPred t o := fun hp => absurd hp.1 hzero
        unfold dwellsFor
        rw [List.filter_cons_of_neg (by simpa using hpred)]
        unfold scanOuts
        rw [if_neg hbig, if_neg hzero]
        exact ih hrest (minD, cnt)

theorem rapidLoop_spec (ins outs : List ℚ) (st : Option ℚ × ℕ)
    (hins : ins.Sorted (· ≤ ·)) (houts : outs.Sorted (· ≤ ·)) :
    rapidLoop ins outs st =
      (List.foldl updateMin st.1 (allDwells ins outs),
       st.2 + (allDwells ins outs).length) := by
  induction ins generalizing outs st with
  | nil => simp [rapidLoop, allDwells]
  | cons t ins' ih =>
    obtain ⟨hle, hins'⟩ := List.sorted_cons.mp hins
    have hstep : rapidLoop (t :: ins') outs st =
        rapidLoop ins' (outs.dropWhile (fun o => decide (o < t)))
          (scanOuts t (outs.dropWhile (fun o => decide (o < t))) st) := rfl
    rw [hstep]
    have houts1sorted : (outs.dropWhile (fun o => decide (o < t))).Sorted (· ≤ ·) :=
      List.Pairwise.sublist (List.dropWhile_sublist _) houts
    rw [scanOuts_spec t _ houts1sorted st]
    rw [ih _ _ hins' houts1sorted]
    rw [dwellsFor_dropWhile t t le_rfl outs]
    have hall : allDwells ins' (outs.dropWhile (fun o => decide (o < t))) =
        allDwells ins' outs := by
      unfold allDwells
      congr 1
      exact List.map_congr_left (fun t' ht' => dwellsFor_dropWhile t t' (hle t' ht') outs)
    rw [hall]
    have hsplit : allDwells (t :: ins') outs =
        dwellsFor t outs ++ allDwells ins' outs := by
      unfold allDwells
      simp
    rw [hsplit]
    simp only [List.foldl_append, List.length_append, Prod.mk.injEq]
    exact ⟨by trivial, by omega⟩

theorem foldl_updateMin_some (l : List ℚ) (x : ℚ) :
    ∃ m, List.foldl updateMin (some x) l = some m ∧ (m = x ∨ m ∈ l) ∧
      m ≤ x ∧ ∀ y ∈ l, m ≤ y := by
  induction l generalizing x with
  | nil => exact ⟨x, rfl, Or.inl rfl, le_rfl, by simp⟩
  | cons d t ih =>
    have hstep : updateMin (some x) d = some (if d < x then d else x) := by
      dsimp only [updateMin]
      split_ifs <;> rfl
    obtain ⟨m, hm, hmem, hmle, hall⟩ := ih (if d < x then d else x)
    refine ⟨m, by simpa [hstep] using hm, ?_, ?_, ?_⟩
    · rcases hmem with rfl | hmem
      · split_ifs with hd
        · exact Or.inr (List.mem_cons_self d t)
        · exact Or.inl rfl
      · exact Or.inr (List.mem_cons_of_mem d hmem)
    · refine le_trans hmle ?_
      split_ifs with hd
      · exact le_of_lt hd
      · exact le_rfl
    · intro y hy
      rcases List.mem_cons.mp hy with rfl | hy
      · refine le_trans hmle ?_
        split_ifs with hd
        · exact le_rfl
        · exact not_lt.mp hd
      · exact hall y hy

theorem foldl_updateMin_none_min (l : List ℚ) (hne : l ≠ []) :
    ∃ m, List.foldl updateMin none l = some m ∧ m ∈ l ∧ ∀ y ∈ l, m ≤ y := by
  cases l with
  | nil => exact absurd rfl hne
  | cons d t =>
    have : List.foldl updateMin none (d :: t) = List.foldl updateMin (some d) t := rfl
    obtain ⟨m, hm, hmem, hmle, hall⟩ := foldl_updateMin_some t d
    refine ⟨m, by rw [this]; exact hm, ?_, ?_⟩
    · rcases hmem with heq | hmem
      · rw [heq]
        exact List.mem_cons_self d t
      · exact List.mem_cons_of_mem d hmem
    · intro y hy
      rcases List.mem_cons.mp hy with rfl | hy
      · exact hmle
      · exact hall y hy

/-- C10: for an account's ascending incoming and outgoing timestamp lists,
a pair is counted as rapid exactly when `0 ≤ t_out − t_in ≤
RAPID_MOVEMENT_MINUTES` (both the simultaneous pair, dwell 0, and the
exact 30-minute boundary count); the loop's count is the number of such
pairs; the account is emitted iff at least one counted pair exists; and
`min_dwell_minutes` is the minimum counted dwell rounded to one decimal. -/
theorem C10_rapid_boundary_and_count (ins outs : List ℚ)
    (hins : ins.Sorted (· ≤ ·)) (houts : outs.Sorted (· ≤ ·)) :
    (∀ t o : ℚ, rapidPairPred t o ↔
      0 ≤ o - t ∧ o - t ≤ 60 * Config.RAPID_MOVEMENT_MINUTES) ∧
    rapidLoop ins outs (none, 0) =
      (List.foldl updateMin none (allDwells ins outs), (allDwells ins outs).length) ∧
    (rapidResult ins outs = none ↔ allDwells ins outs = []) ∧
    (allDwells ins outs ≠ [] →
      ∃ m, m ∈ allDwells ins outs ∧ (∀ y ∈ allDwells ins outs, m ≤ y) ∧
        rapidResult ins outs = some (pyRound 1 m, (allDwells ins outs).length)) := by
  have hloop := rapidLoop_spec ins outs (none, 0) hins houts
  simp only [Nat.zero_add] at hloop
  have hpred : ∀ t o : ℚ, rapidPairPred t o ↔
      0 ≤ o - t ∧ o - t ≤ 60 * Config.RAPID_MOVEMENT_MINUTES := by
    intro t o
    unfold rapidPairPred
    constructor
    · rintro ⟨h1, h2⟩
      constructor
      · nlinarith
      · nlinarith
    · rintro ⟨h1, h2⟩
      constructor
      · positivity
      · rw [div_le_iff₀ (by norm_num : (0:ℚ) < 60)]
        linarith
  refine ⟨hpred, hloop, ?_, ?_⟩
  · constructor
    · intro hres
      by_contra hne
      obtain ⟨m, hm, _, _⟩ := foldl_updateMin_none_min (allDwells ins outs) hne
      unfold rapidResult at hres
      rw [hloop] at hres
      simp only at hres
      rw [if_pos (List.length_pos.mpr hne)] at hres
      rw [hm] at hres
      simp at hres
    · intro hnil
      unfold rapidResult
      rw [hloop]
      simp [hnil]
  · intro hne
    obtain ⟨m, hm, hmem, hall⟩ := foldl_updateMin_none_min (allDwells ins outs) hne
    refine ⟨m, hmem, hall, ?_⟩
    unfold rapidResult
    rw [hloop]
    simp only
    rw [if_pos (List.length_pos.mpr hne), hm]

/-- Witness for `C10_rapid_boundary_and_count`: one incoming transfer at
`t = 0` and outgoing transfers at 0 s (dwell 0), 1800 s (dwell exactly 30
minutes) and 1801 s (dwell just over the boundary). -/
theorem C10_rapid_boundary_and_count_witness :
    (([(0 : ℚ)] : List ℚ).Sorted (· ≤ ·) ∧
      ([(0 : ℚ), 1800, 1801] : List ℚ).Sorted (· ≤ ·)) ∧
    ((∀ t o : ℚ, rapidPairPred t o ↔
        0 ≤ o - t ∧ o - t ≤ 60 * Config.RAPID_MOVEMENT_MINUTES) ∧
      rapidLoop [(0 : ℚ)] [(0 : ℚ), 1800, 1801] (none, 0) =
        (List.foldl updateMin none (allDwells [(0 : ℚ)] [(0 : ℚ), 1800, 1801]),
         (allDwells [(0 : ℚ)] [(0 : ℚ), 1800, 1801]).length) ∧
      (rapidResult [(0 : ℚ)] [(0 : ℚ), 1800, 1801] = none ↔
        allDwells [(0 : ℚ)] [(0 : ℚ), 1800, 1801] = []) ∧
      (allDwells [(0 : ℚ)] [(0 : ℚ), 1800, 1801] ≠ [] →
        ∃ m, m ∈ allDwells [(0 : ℚ)] [(0 : ℚ), 1800, 1801] ∧
          (∀ y ∈ allDwells [(0 : ℚ)] [(0 : ℚ), 1800, 1801], m ≤ y) ∧
          rapidResult [(0 : ℚ)] [(0 : ℚ), 1800, 1801] =
            some (pyRound 1 m, (allDwells [(0 : ℚ)] [(0 : ℚ), 1800, 1801]).length))) := by
  have h1 : ([(0 : ℚ)] : List ℚ).Sorted (· ≤ ·) := by simp
  have h2 : ([(0 : ℚ), 1800, 1801] : List ℚ).Sorted (· ≤ ·) := by
    simp [List.sorted_cons]
    norm_num
  exact ⟨⟨h1, h2⟩, C10_rapid_boundary_and_count _ _ h1 h2⟩

/-! ### Claim C6 -/

theorem smurfFanInGo_hub (dfs : List Tx) (excluded : List Account)
    (windowTd : ℚ) (keys : List Account) (seen : List (Pat × Account)) :
    ∀ ring ∈ (smurfFanInGo dfs excluded windowTd keys seen).1,
      ring.pattern = .fan_in ∧ ∃ k, ring.hub = some k ∧ k ∉ excluded := by
  induction keys generalizing seen with
  | nil => intro ring h; simp [smurfFanInGo] at h
  | cons receiver keys ih =>
    intro ring h
    simp only [smurfFanInGo] at h
    split_ifs at h with h1 h2 h3
    · exact ih seen ring h
    · exact ih seen ring h
    · rcases List.mem_cons.mp h with rfl | h
      · exact ⟨rfl, receiver, rfl, h1⟩
      · exact ih _ ring h
    · exact ih seen ring h

theorem smurfFanOutGo_hub (dfs : List Tx) (excluded : List Account)
    (windowTd : ℚ) (keys : List Account) (seen : List (Pat × Account)) :
    ∀ ring ∈ (smurfFanOutGo dfs excluded windowTd keys seen).1,
      ring.pattern = .fan_out ∧ ∃ k, ring.hub = some k ∧ k ∉ excluded := by
  induction keys generalizing seen with
  | nil => intro ring h; simp [smurfFanOutGo] at h
  | cons sender keys ih =>
    intro ring h
    simp only [smurfFanOutGo] at h
    split_ifs at h with h1 h2 h3
    · exact ih seen ring h
    · exact ih seen ring h
    · rcases List.mem_cons.mp h with rfl | h
      · exact ⟨rfl, sender, rfl, h1⟩
      · exact ih _ ring h
    · exact ih seen ring h

/-- C6: the smurf detector never emits a `fan_in` ring whose hub is a
merchant-excluded receiver (incoming-amount coefficient of variation above
`MERCHANT_AMOUNT_CV_THRESHOLD`, with ≥ 2 samples and positive mean; the
comparison `std/mean > t` is stated squared, see `merchantCvExceeds`),
and never a `fan_out` ring whose hub is a payroll-excluded sender (≥ 2
outgoing rows spanning at most `PAYROLL_BATCH_SECONDS`). -/
theorem C6_merchant_payroll_excluded (df : List Tx) (r s : Account)
    (hm : merchantCvExceeds ((df.filter (fun t => t.receiver = r)).map (·.amount)))
    (hp : payrollSpanSmall ((df.filter (fun t => t.sender = s)).map (·.timestamp))) :
    ∀ ring ∈ detectSmurfing df,
      ¬(ring.pattern = .fan_in ∧ ring.hub = some r) ∧
      ¬(ring.pattern = .fan_out ∧ ring.hub = some s) := by
  have hrmem : r ∈ merchantReceivers df := by
    unfold merchantReceivers
    rw [List.mem_filter]
    constructor
    · rw [mem_groupKeys]
      have hlen : 2 ≤ ((df.filter (fun t => t.receiver = r)).map (·.amount)).length := hm.1
      have hne : (df.filter (fun t => t.receiver = r)) ≠ [] := by
        intro hnil
        rw [hnil] at hlen
        simp at hlen
      obtain ⟨t0, ht0⟩ := List.exists_mem_of_ne_nil _ hne
      have := List.mem_filter.mp ht0
      exact List.mem_map.mpr ⟨t0, this.1, by simpa using this.2⟩
    · simpa using hm
  have hsmem : s ∈ payrollSenders df := by
    unfold payrollSenders
    rw [List.mem_filter]
    constructor
    · rw [mem_groupKeys]
      have hlen : 2 ≤ ((df.filter (fun t => t.sender = s)).map (·.timestamp)).length := hp.1
      have hne : (df.filter (fun t => t.sender = s)) ≠ [] := by
        intro hnil
        rw [hnil] at hlen
        simp at hlen
      obtain ⟨t0, ht0⟩ := List.exists_mem_of_ne_nil _ hne
      have := List.mem_filter.mp ht0
      exact List.mem_map.mpr ⟨t0, this.1, by simpa using this.2⟩
    · simpa using hp
  intro ring hring
  unfold detectSmurfing at hring
  rcases List.mem_append.mp hring with h | h
  · obtain ⟨hpat, k, hhub, hkex⟩ := smurfFanInGo_hub _ _ _ _ _ ring h
    constructor
    · rintro ⟨-, hhubr⟩
      rw [hhub] at hhubr
      have : k = r := by simpa using hhubr
      exact hkex (this ▸ hrmem)
    · rintro ⟨hpat2, -⟩
      rw [hpat] at hpat2
      exact absurd hpat2 (by simp)
  · obtain ⟨hpat, k, hhub, hkex⟩ := smurfFanOutGo_hub _ _ _ _ _ ring h
    constructor
    · rintro ⟨hpat2, -⟩
      rw [hpat] at hpat2
      exact absurd hpat2 (by simp)
    · rintro ⟨-, hhubs⟩
      rw [hhub] at hhubs
      have : k = s := by simpa using hhubs
      exact hkex (this ▸ hsmem)

/-- Concrete table for the C6 witness: receiver 20 gets two wildly
different amounts (7 and 95: CV ≫ 0.15); sender 30 fires two transfers
30 s apart (≤ 60 s batch window). -/
def dfC6 : List Tx :=
  [{ sender := 11, receiver := 20, amount := 7, timestamp := 0 },
   { sender := 12, receiver := 20, amount := 95, timestamp := 100 },
   { sender := 30, receiver := 41, amount := 50, timestamp := 1000 },
   { sender := 30, receiver := 42, amount := 50, timestamp := 1030 }]

/-- Witness for `C6_merchant_payroll_excluded` on `dfC6`. -/
theorem C6_merchant_payroll_excluded_witness :
    (merchantCvExceeds ((dfC6.filter (fun t => t.receiver = 20)).map (·.amount)) ∧
      payrollSpanSmall ((dfC6.filter (fun t => t.sender = 30)).map (·.timestamp))) ∧
    ∀ ring ∈ detectSmurfing dfC6,
      ¬(ring.pattern = .fan_in ∧ ring.hub = some 20) ∧
      ¬(ring.pattern = .fan_out ∧ ring.hub = some 30) := by
  have hm : merchantCvExceeds ((dfC6.filter (fun t => t.receiver = 20)).map (·.amount)) := by
    norm_num [dfC6, merchantCvExceeds, popVariance,
      Config.MERCHANT_AMOUNT_CV_THRESHOLD, List.filter]
  have hp : payrollSpanSmall ((dfC6.filter (fun t => t.sender = 30)).map (·.timestamp)) := by
    norm_num [dfC6, payrollSpanSmall, pyMax, pyMin,
      Config.PAYROLL_BATCH_SECONDS, List.filter]
  exact ⟨⟨hm, hp⟩, C6_merchant_payroll_excluded dfC6 20 30 hm hp⟩

/-! ### Claim C5 -/

theorem canonicalCycle_eq_rotate (c : List Account) (h : c ≠ []) :
    canonicalCycle c = c.rotate (c.indexOf (pyMin c)) := by
  unfold canonicalCycle
  rw [if_neg h]
  exact (List.rotate_eq_drop_append_take
    (le_of_lt (List.indexOf_lt_length.mpr (pyMin_mem h)))).symm

theorem cyclePairs_rotate (c : List Account) (n : ℕ) :
    cyclePairs (c.rotate n) = (cyclePairs c).rotate n := by
  unfold cyclePairs
  show List.zipWith Prod.mk (c.rotate n) ((c.rotate n).rotate 1) =
    (List.zipWith Prod.mk c (c.rotate 1)).rotate n
  rw [List.rotate_rotate, Nat.add_comm n 1, ← List.rotate_rotate]
  exact (List.zipWith_rotate_distrib Prod.mk c (c.rotate 1) n
    (by rw [List.length_rotate])).symm

theorem isSimpleCycle_canonical (E : List (Account × Account))
    (c : List Account) (h : IsSimpleCycleIn E c) :
    IsSimpleCycleIn E (canonicalCycle c) := by
  obtain ⟨hne, hnd, hpairs⟩ := h
  rw [canonicalCycle_eq_rotate c hne]
  refine ⟨?_, ?_, ?_⟩
  · rw [Ne, List.rotate_eq_nil_iff]
    exact hne
  · exact List.nodup_rotate.mpr hnd
  · intro p hp
    rw [cyclePairs_rotate] at hp
    exact hpairs p (List.mem_rotate.mp hp)

theorem canonicalCycle_head (c : List Account) (h : c ≠ []) :
    (canonicalCycle c).head? = some (pyMin c) := by
  rw [canonicalCycle_eq_rotate c h]
  rw [List.head?_rotate (List.indexOf_lt_length.mpr (pyMin_mem h))]
  exact List.getElem?_indexOf (pyMin_mem h)

theorem canonicalCycle_perm (c : List Account) (h : c ≠ []) :
    List.Perm (canonicalCycle c) c := by
  rw [canonicalCycle_eq_rotate c h]
  exact List.rotate_perm c _

theorem pyMin_eq_of_perm {l l' : List Account} (hp : List.Perm l l') (hne : l ≠ []) :
    pyMin l = pyMin l' := by
  have hne' : l' ≠ [] := by
    intro h
    rw [h] at hp
    exact hne (List.Perm.eq_nil hp)
  refine le_antisymm ?_ ?_
  · exact pyMin_le (hp.mem_iff.mpr (pyMin_mem hne'))
  · exact pyMin_le (hp.symm.mem_iff.mpr (pyMin_mem hne))

theorem cyclePat_inj {m l : ℕ} (hm3 : 3 ≤ m) (hm5 : m ≤ 5) (hl3 : 3 ≤ l)
    (hl5 : l ≤ 5) (h : cyclePat m = cyclePat l) : m = l := by
  interval_cases m <;> interval_cases l <;> simp_all [cyclePat]

/-- The per-ring facts C5 asserts of an emitted cycle ring. -/
def CycleRingOK (E : List (Account × Account)) (r : FRing) : Prop :=
  IsSimpleCycleIn E r.members ∧
  Config.CYCLE_MIN_LEN ≤ r.members.length ∧
  r.members.length ≤ Config.CYCLE_MAX_LEN ∧
  r.pattern = cyclePat r.members.length ∧
  r.cycle_length = some r.members.length ∧
  r.members.head? = some (pyMin r.members)

theorem detectCyclesGo_sound (E : List (Account × Account))
    (cycles : List (List Account)) (seen : List (List Account)) (count : ℕ)
    (hcyc : ∀ c ∈ cycles, IsSimpleCycleIn E c) :
    (∀ r ∈ detectCyclesGo cycles seen count, CycleRingOK E r) ∧
    ((detectCyclesGo cycles seen count).map (fun r => r.members)).Nodup ∧
    (∀ m ∈ (detectCyclesGo cycles seen count).map (fun r => r.members), m ∉ seen) := by
  induction cycles generalizing seen count with
  | nil => simp [detectCyclesGo]
  | cons c rest ih =>
    simp only [detectCyclesGo]
    have hc : IsSimpleCycleIn E c := hcyc c (List.mem_cons_self c rest)
    have hrest : ∀ c' ∈ rest, IsSimpleCycleIn E c' :=
      fun c' hc' => hcyc c' (List.mem_cons_of_mem c hc')
    split_ifs with hcap hlen hseen
    · simp
    · exact ih seen count hrest
    · exact ih seen count hrest
    · -- emit case
      push_neg at hlen
      have hne : c ≠ [] := by
        intro hnil
        rw [hnil] at hlen
        simp [Config.CYCLE_MIN_LEN] at hlen
      have hperm := canonicalCycle_perm c hne
      have hlencan : (canonicalCycle c).length = c.length := hperm.length_eq
      obtain ⟨ihOK, ihnd, ihseen⟩ := ih (canonicalCycle c :: seen) (count + 1) hrest
      refine ⟨?_, ?_, ?_⟩
      · intro r hr
        rcases List.mem_cons.mp hr with rfl | hr
        · refine ⟨isSimpleCycle_canonical E c hc, ?_, ?_, ?_, ?_, ?_⟩
          · simpa [hlencan] using hlen.1
          · simpa [hlencan] using hlen.2
          · simp [hlencan]
          · simp [hlencan]
          · rw [canonicalCycle_head c hne]
            rw [pyMin_eq_of_perm hperm.symm hne]
        · exact ihOK r hr
      · simp only [List.map_cons, List.nodup_cons]
        refine ⟨?_, ihnd⟩
        intro hmem
        exact ihseen _ hmem (List.mem_cons_self _ _)
      · intro m hm
        simp only [List.map_cons, List.mem_cons] at hm
        rcases hm with rfl | hm
        · exact hseen
        · intro hmseen
          exact ihseen m hm (List.mem_cons_of_mem _ hmseen)

/-- C5: every ring the cycle detector emits (from the `nx.simple_cycles`
stream, whose elements are simple directed cycles of the graph — taken as
a hypothesis, NetworkX being external) has members forming a simple
directed cycle of its recorded length `L ∈ [3, 5]`, carries the
`cycle_length_L` pattern, starts with its smallest account id (canonical
rotation), and no two emitted rings share a member tuple. -/
theorem C5_cycle_rings_canonical (E : List (Account × Account))
    (cycles : List (List Account))
    (hcyc : ∀ c ∈ cycles, IsSimpleCycleIn E c) :
    (∀ r ∈ detectCycles cycles, CycleRingOK E r) ∧
    ((detectCycles cycles).map (fun r => r.members)).Nodup ∧
    (∀ r ∈ detectCycles cycles, ∀ L, Config.CYCLE_MIN_LEN ≤ L →
      L ≤ Config.CYCLE_MAX_LEN → r.pattern = cyclePat L → r.members.length = L) := by
  obtain ⟨hOK, hnd, _⟩ := detectCyclesGo_sound E cycles [] 0 hcyc
  refine ⟨hOK, hnd, ?_⟩
  intro r hr L hL3 hL5 hpat
  obtain ⟨_, h3, h5, hp, _, _⟩ := hOK r hr
  exact cyclePat_inj h3 h5 hL3 hL5 (hp ▸ hpat)

/-- Witness for `C5_cycle_rings_canonical`: the triangle `1 → 2 → 3 → 1`
yielded by the enumerator in the rotation `[2, 3, 1]`. -/
theorem C5_cycle_rings_canonical_witness :
    (∀ c ∈ [[(2 : Account), 3, 1]],
      IsSimpleCycleIn [(1, 2), (2, 3), (3, 1)] c) ∧
    ((∀ r ∈ detectCycles [[(2 : Account), 3, 1]],
        CycleRingOK [(1, 2), (2, 3), (3, 1)] r) ∧
      ((detectCycles [[(2 : Account), 3, 1]]).map (fun r => r.members)).Nodup ∧
      (∀ r ∈ detectCycles [[(2 : Account), 3, 1]], ∀ L,
        Config.CYCLE_MIN_LEN ≤ L → L ≤ Config.CYCLE_MAX_LEN →
        r.pattern = cyclePat L → r.members.length = L)) := by
  have hcyc : ∀ c ∈ [[(2 : Account), 3, 1]],
      IsSimpleCycleIn [(1, 2), (2, 3), (3, 1)] c := by
    intro c hcm
    simp only [List.mem_singleton] at hcm
    subst hcm
    refine ⟨by simp, by decide, ?_⟩
    have hcp : cyclePairs [(2 : Account), 3, 1] = [(2, 3), (3, 1), (1, 2)] := by decide
    intro p hp
    rw [hcp] at hp
    fin_cases hp <;> decide
  exact ⟨hcyc, C5_cycle_rings_canonical [(1, 2), (2, 3), (3, 1)]
    [[(2 : Account), 3, 1]] hcyc⟩

/-! ### Claim C7 -/

theorem pySorted_pair (x y : Account) :
    pySorted [x, y] = if x ≤ y then [x, y] else [y, x] := rfl

theorem pySorted_pair_eq {x y u v : Account}
    (h : pySorted [x, y] = pySorted [u, v]) :
    (x = u ∧ y = v) ∨ (x = v ∧ y = u) := by
  rw [pySorted_pair, pySorted_pair] at h
  split_ifs at h with h1 h2 h2 <;>
    simp only [List.cons.injEq, and_true] at h <;> tauto

theorem edgeAmount_of_mem {E : EdgeList} (hnd : E.NoDupKeys)
    {e : Account × Account × ℚ} (he : e ∈ E) :
    edgeAmount E e.1 e.2.1 = some e.2.2 := by
  induction E with
  | nil => simp at he
  | cons h t ih =>
    have hnodups : ((h :: t).map (fun x => (x.1, x.2.1))).Nodup := hnd
    rw [List.map_cons, List.nodup_cons] at hnodups
    obtain ⟨hnotin, hndt⟩ := hnodups
    rcases List.mem_cons.mp he with rfl | he
    · unfold edgeAmount
      rw [List.find?_cons_of_pos _ (by simp)]
      simp
    · by_cases hkey : h.1 = e.1 ∧ h.2.1 = e.2.1
      · exfalso
        apply hnotin
        rw [hkey.1, hkey.2]
        exact List.mem_map.mpr ⟨e, he, rfl⟩
      · have hstep : edgeAmount (h :: t) e.1 e.2.1 = edgeAmount t e.1 e.2.1 := by
          unfold edgeAmount
          rw [List.find?_cons_of_neg _ ?_]
          simp only [Bool.and_eq_true, beq_iff_eq, not_and]
          intro h1 h2
          exact hkey ⟨h1, h2⟩
        rw [hstep]
        exact ih hndt he

theorem edgeAmount_mem {E : EdgeList} {u v : Account} {a : ℚ}
    (h : edgeAmount E u v = some a) : (u, v, a) ∈ E := by
  unfold edgeAmount at h
  cases hf : E.find? (fun e => e.1 == u && e.2.1 == v) with
  | none => rw [hf] at h; simp at h
  | some e =>
    rw [hf] at h
    simp only [Option.map_some', Option.some.injEq] at h
    have hmem := List.mem_of_find?_eq_some hf
    have hprop := List.find?_some hf
    simp only [Bool.and_eq_true, beq_iff_eq] at hprop
    have : e = (u, v, a) := by
      obtain ⟨e1, e2, e3⟩ := e
      simp only at hprop h
      simp [hprop.1, hprop.2, h]
    exact this ▸ hmem

/-- Everything the detector guarantees about an emitted round-trip ring. -/
def RoundTripOK (E : EdgeList) (r : FRing) : Prop :=
  r.pattern = .round_trip ∧
  ∃ u' v' a b, r.members = pySorted [u', v'] ∧
    edgeAmount E u' v' = some a ∧ edgeAmount E v' u' = some b ∧
    0 < a ∧ 0 < b ∧
    (max a b - min a b) / max a b ≤ Config.ROUND_TRIP_AMOUNT_TOLERANCE ∧
    r.forward_amount = some a ∧ r.reverse_amount = some b ∧
    r.similarity = some (pyRound 3 (1 - (max a b - min a b) / max a b))

theorem roundTripsGo_sound (E : EdgeList) (hnd : E.NoDupKeys)
    (todo : List (Account × Account × ℚ)) (seen : List (List Account))
    (htodo : ∀ e ∈ todo, e ∈ E) :
    ∀ r ∈ detectRoundTripsGo E todo seen, RoundTripOK E r := by
  induction todo generalizing seen with
  | nil => intro r hr; simp [detectRoundTripsGo] at hr
  | cons e rest ih =>
    obtain ⟨u, v, amt⟩ := e
    have hrest : ∀ e ∈ rest, e ∈ E := fun e he => htodo e (List.mem_cons_of_mem _ he)
    have hmemE : ((u, v, amt) : Account × Account × ℚ) ∈ E :=
      htodo _ (List.mem_cons_self _ _)
    intro r hr
    simp only [detectRoundTripsGo] at hr
    cases hrev : edgeAmount E v u with
    | none =>
      simp only [hrev] at hr
      exact ih seen hrest r hr
    | some revAmt =>
      simp only [hrev] at hr
      split_ifs at hr with hseen hnonpos hdiff
      · exact ih seen hrest r hr
      · exact ih _ hrest r hr
      · rcases List.mem_cons.mp hr with rfl | hr
        · push_neg at hnonpos
          refine ⟨rfl, u, v, amt, revAmt, rfl, ?_, hrev, hnonpos.1, hnonpos.2, hdiff, rfl, rfl, rfl⟩
          exact edgeAmount_of_mem hnd hmemE
        · exact ih _ hrest r hr
      · exact ih _ hrest r hr

theorem pySorted_pair_comm (x y : Account) :
    pySorted [x, y] = pySorted [y, x] := by
  rw [pySorted_pair, pySorted_pair]
  split_ifs with h1 h2 h2
  · rw [le_antisymm h1 h2]
  · rfl
  · rfl
  · exact absurd (le_of_not_le h1) h2

theorem noDupKeys_amount {E : EdgeList} (hnd : E.NoDupKeys)
    {u v : Account} {a c : ℚ} (h1 : (u, v, a) ∈ E) (h2 : (u, v, c) ∈ E) :
    a = c := by
  have e1 := edgeAmount_of_mem hnd h1
  have e2 := edgeAmount_of_mem hnd h2
  simp only at e1 e2
  rw [e1] at e2
  exact (Option.some.injEq _ _).mp e2

theorem roundTripsGo_members_nodup (E : EdgeList) :
    ∀ todo seen,
      ((detectRoundTripsGo E todo seen).map (fun r => r.members)).Nodup ∧
      ∀ r ∈ detectRoundTripsGo E todo seen, r.members ∉ seen := by
  intro todo
  induction todo with
  | nil => intro seen; simp [detectRoundTripsGo]
  | cons e rest ih =>
    intro seen
    obtain ⟨x, y, c⟩ := e
    simp only [detectRoundTripsGo]
    split
    · exact ih seen
    · split_ifs with h1 h2 h3
      · exact ih seen
      · exact ⟨(ih _).1, fun r hr hmem =>
          (ih _).2 r hr (List.mem_cons_of_mem _ hmem)⟩
      · constructor
        · rw [List.map_cons, List.nodup_cons]
          refine ⟨fun hmem => ?_, (ih _).1⟩
          obtain ⟨r, hr, hrm⟩ := List.mem_map.mp hmem
          exact (ih _).2 r hr (by rw [hrm]; exact List.mem_cons_self _ _)
        · intro r hr hmem
          rcases List.mem_cons.mp hr with rfl | hr
          · exact h1 hmem
          · exact (ih _).2 r hr (List.mem_cons_of_mem _ hmem)
      · exact ⟨(ih _).1, fun r hr hmem =>
          (ih _).2 r hr (List.mem_cons_of_mem _ hmem)⟩

theorem roundTripsGo_complete (E : EdgeList) (hnd : E.NoDupKeys)
    {u v : Account} {a b : ℚ}
    (hf : (u, v, a) ∈ E) (hr : (v, u, b) ∈ E)
    (ha : 0 < a) (hb : 0 < b)
    (htol : (max a b - min a b) / max a b ≤ Config.ROUND_TRIP_AMOUNT_TOLERANCE) :
    ∀ todo seen, (∀ e ∈ todo, e ∈ E) →
      ((u, v, a) ∈ todo ∨ (v, u, b) ∈ todo) →
      pySorted [u, v] ∉ seen →
      ∃ r ∈ detectRoundTripsGo E todo seen, r.members = pySorted [u, v] := by
  intro todo
  induction todo with
  | nil =>
    intro seen _ hin _
    rcases hin with h | h <;> simp at h
  | cons e rest ih =>
    intro seen hsub hin hnot
    obtain ⟨x, y, c⟩ := e
    by_cases hrel : ((x, y, c) : Account × Account × ℚ) = (u, v, a) ∨
        ((x, y, c) : Account × Account × ℚ) = (v, u, b)
    · rcases hrel with heq | heq
      · simp only [Prod.mk.injEq] at heq
        obtain ⟨h1, h2, h3⟩ := heq
        rw [h1, h2, h3]
        have hlook : edgeAmount E v u = some b := by
          have := edgeAmount_of_mem hnd hr
          simpa using this
        simp only [detectRoundTripsGo, hlook]
        rw [if_neg hnot, if_neg (by push_neg; exact ⟨ha, hb⟩), if_pos htol]
        exact ⟨_, List.mem_cons_self _ _, rfl⟩
      · simp only [Prod.mk.injEq] at heq
        obtain ⟨h1, h2, h3⟩ := heq
        rw [h1, h2, h3]
        have hlook : edgeAmount E u v = some a := by
          have := edgeAmount_of_mem hnd hf
          simpa using this
        have hnot' : pySorted [v, u] ∉ seen := by
          rw [pySorted_pair_comm]; exact hnot
        simp only [detectRoundTripsGo, hlook]
        rw [if_neg hnot',
          if_neg (by push_neg; exact ⟨hb, ha⟩),
          if_pos (by rw [max_comm, min_comm]; exact htol)]
        exact ⟨_, List.mem_cons_self _ _, pySorted_pair_comm v u⟩
    · push_neg at hrel
      have hsub' : ∀ e ∈ rest, e ∈ E := fun e he => hsub e (List.mem_cons_of_mem _ he)
      have hin' : ((u, v, a) ∈ rest ∨ (v, u, b) ∈ rest) := by
        rcases hin with h | h
        · rcases List.mem_cons.mp h with heq | h
          · exact absurd heq.symm hrel.1
          · exact Or.inl h
        · rcases List.mem_cons.mp h with heq | h
          · exact absurd heq.symm hrel.2
          · exact Or.inr h
      have hne : pySorted [x, y] ≠ pySorted [u, v] := by
        intro heq
        rcases pySorted_pair_eq heq with ⟨rfl, rfl⟩ | ⟨rfl, rfl⟩
        · exact hrel.1 (by rw [noDupKeys_amount hnd (hsub _ (List.mem_cons_self _ _)) hf])
        · exact hrel.2 (by rw [noDupKeys_amount hnd (hsub _ (List.mem_cons_self _ _)) hr])
      have hnot' : pySorted [u, v] ∉ pySorted [x, y] :: seen := by
        intro hmem
        rcases List.mem_cons.mp hmem with h | h
        · exact hne h.symm
        · exact hnot h
      simp only [detectRoundTripsGo]
      split
      · exact ih seen hsub' hin' hnot
      · split_ifs with h1 h2 h3
        · exact ih seen hsub' hin' hnot
        · exact ih _ hsub' hin' hnot'
        · obtain ⟨r, hrm, hre⟩ := ih _ hsub' hin' hnot'
          exact ⟨r, List.mem_cons_of_mem _ hrm, hre⟩
        · exact ih _ hsub' hin' hnot'

/-- **C7.** (Amended.) For a graph with no duplicate directed edges the
round-trip detector is sound: every emitted ring records two opposite
edges `(u,v)` and `(v,u)` of `G` with positive amounts within the 20%
tolerance, `members = sorted [u,v]`, pattern `round_trip`, and similarity
`round(1 − (max−min)/max, 3)` — rounded to 3 decimals, not the exact
`1 − (max−min)/max` of the spec.  It is complete: every such pair of
edges yields a ring for the pair.  And the emitted members lists are
pairwise distinct, so each unordered pair yields at most one ring. -/
theorem C7_round_trip_characterization (E : EdgeList) (hnd : E.NoDupKeys) :
    (∀ r ∈ detectRoundTrips E, RoundTripOK E r) ∧
    (∀ u v : Account, ∀ a b : ℚ,
      (u, v, a) ∈ E → (v, u, b) ∈ E → 0 < a → 0 < b →
      (max a b - min a b) / max a b ≤ Config.ROUND_TRIP_AMOUNT_TOLERANCE →
      ∃ r ∈ detectRoundTrips E, r.members = pySorted [u, v]) ∧
    ((detectRoundTrips E).map (fun r => r.members)).Nodup := by
  refine ⟨roundTripsGo_sound E hnd E [] (fun e he => he), ?_,
    (roundTripsGo_members_nodup E E []).1⟩
  intro u v a b hf hr ha hb htol
  exact roundTripsGo_complete E hnd hf hr ha hb htol E []
    (fun e he => he) (Or.inl hf) (List.not_mem_nil _)

theorem C7_round_trip_characterization_witness :
    EdgeList.NoDupKeys [((1 : Account), (2 : Account), (1000 : ℚ)), (2, 1, 1050)] ∧
    ∀ r ∈ detectRoundTrips [((1 : Account), (2 : Account), (1000 : ℚ)), (2, 1, 1050)],
      RoundTripOK [((1 : Account), (2 : Account), (1000 : ℚ)), (2, 1, 1050)] r :=
  ⟨by decide, (C7_round_trip_characterization _ (by decide)).1⟩

/-- **C7, counterexample to the spec's similarity formula.** On the
two-edge graph `1 → 2` ($1000) and `2 → 1` ($1050) the emitted ring's
similarity is `round(1 − 50/1050, 3) = 0.952`, which differs from the
exact `1 − (max−min)/max = 20/21 = 0.952380…` stated by the spec. -/
theorem C7_similarity_rounded :
    (detectRoundTrips [(1, 2, 1000), (2, 1, 1050)]).map (fun r => r.similarity)
      = [some ((952 : ℚ) / 1000)] ∧
    ((952 : ℚ) / 1000) ≠ 1 - ((1050 : ℚ) - 1000) / 1050 := by
  constructor
  · have hfloor : (⌊(20 : ℚ) / 21 * 10 ^ 3⌋ : ℤ) = 952 := by
      rw [Int.floor_eq_iff]
      norm_num
    have hround : pyRound 3 ((20 : ℚ) / 21) = 952 / 1000 := by
      rw [pyRound, pyRoundInt]
      rw [hfloor]
      norm_num
    repeat first
    | norm_num [detectRoundTrips, detectRoundTripsGo, edgeAmount,
        List.find?, pySorted, pySortBy, stableInsert,
        max_def, min_def, Config.ROUND_TRIP_AMOUNT_TOLERANCE, hround]
    | simp [hround]
  · norm_num

/-! ### Claim C9 -/

/-- Two disjoint shell chains `1 → 2 → 3 → 4` and `5 → 6 → 7 → 8`. -/
def dfC9 : List Tx :=
  [{ sender := 1, receiver := 2, amount := 100, timestamp := 0 },
   { sender := 2, receiver := 3, amount := 100, timestamp := 3600 },
   { sender := 3, receiver := 4, amount := 100, timestamp := 7200 },
   { sender := 5, receiver := 6, amount := 100, timestamp := 0 },
   { sender := 6, receiver := 7, amount := 100, timestamp := 3600 },
   { sender := 7, receiver := 8, amount := 100, timestamp := 7200 }]

/-- One possible iteration order of the Python account set
`set(senders) | set(receivers)` in `build_graph`. -/
def orderC9a : List Account := [1, 2, 3, 4, 5, 6, 7, 8]

/-- Another iteration order of the same set (Python string-set order
depends on `PYTHONHASHSEED`, so both orders occur in real runs). -/
def orderC9b : List Account := [5, 6, 7, 8, 1, 2, 3, 4]

/-- The SCC decomposition of the two disjoint paths: all singletons. -/
def sccsC9 : List (List Account) := [[1], [2], [3], [4], [5], [6], [7], [8]]

/-- The `fraud_rings` output of the engine on `dfC9` as a function of the
node-set iteration order: shell detection, ring-id assignment (with
merging) and formatting. -/
def pipelineC9 (ord : List Account) : List FraudRingOut :=
  formatFraudRings
    (assignRingIds [] [] (detectShellNetworks (buildGraphView dfC9 ord sccsC9) 20) [] true)

def shellRing23 : FRing :=
  { members := [2, 3], pattern := .shell_chain, chain_length := some 3,
    shell_intermediaries := [2, 3] }

def shellRing67 : FRing :=
  { members := [6, 7], pattern := .shell_chain, chain_length := some 3,
    shell_intermediaries := [6, 7] }

theorem detectShellC9a :
    detectShellNetworks (buildGraphView dfC9 orderC9a sccsC9) 20
      = [shellRing23, shellRing67] := by
  repeat
    first
    | norm_num [List.cons_ne_nil, detectShellNetworks, shellSources, shellWhile, shellVisit,
        shellNodesOf, cycleNodesOf, buildGraphView, dfC9, orderC9a, sccsC9, groupKeys,
        dedupKeepFirst, pySorted, pySortBy, stableInsert, shellRing23, shellRing67,
        List.filter, List.foldl, List.countP_cons, List.countP_nil,
        decide_eq_true_eq, List.getLast!, List.getLast?, Config.SHELL_MAX_TX,
        Config.SHELL_MIN_CHAIN, Config.SHELL_MAX_CHAIN, Config.MAX_SHELL_CHAINS]
    | simp [detectShellNetworks, shellSources, shellWhile, shellVisit,
        shellNodesOf, cycleNodesOf, buildGraphView, dfC9, orderC9a, sccsC9, groupKeys,
        dedupKeepFirst, pySorted, pySortBy, stableInsert, shellRing23, shellRing67,
        List.filter, List.foldl, List.countP_cons, List.countP_nil,
        decide_eq_true_eq, List.getLast!, List.getLast?, Config.SHELL_MAX_TX,
        Config.SHELL_MIN_CHAIN, Config.SHELL_MAX_CHAIN, Config.MAX_SHELL_CHAINS]

theorem detectShellC9b :
    detectShellNetworks (buildGraphView dfC9 orderC9b sccsC9) 20
      = [shellRing67, shellRing23] := by
  repeat
    first
    | norm_num [List.cons_ne_nil, detectShellNetworks, shellSources, shellWhile, shellVisit,
        shellNodesOf, cycleNodesOf, buildGraphView, dfC9, orderC9b, sccsC9, groupKeys,
        dedupKeepFirst, pySorted, pySortBy, stableInsert, shellRing23, shellRing67,
        List.filter, List.foldl, List.countP_cons, List.countP_nil,
        decide_eq_true_eq, List.getLast!, List.getLast?, Config.SHELL_MAX_TX,
        Config.SHELL_MIN_CHAIN, Config.SHELL_MAX_CHAIN, Config.MAX_SHELL_CHAINS]
    | simp [detectShellNetworks, shellSources, shellWhile, shellVisit,
        shellNodesOf, cycleNodesOf, buildGraphView, dfC9, orderC9b, sccsC9, groupKeys,
        dedupKeepFirst, pySorted, pySortBy, stableInsert, shellRing23, shellRing67,
        List.filter, List.foldl, List.countP_cons, List.countP_nil,
        decide_eq_true_eq, List.getLast!, List.getLast?, Config.SHELL_MAX_TX,
        Config.SHELL_MIN_CHAIN, Config.SHELL_MAX_CHAIN, Config.MAX_SHELL_CHAINS]

theorem pipelineC9a_eval :
    pipelineC9 orderC9a =
      [{ ring_id := 1, member_accounts := [2, 3], pattern_type := .shell_chain,
         risk_score := 70, confidence := 13/20 },
       { ring_id := 2, member_accounts := [6, 7], pattern_type := .shell_chain,
         risk_score := 70, confidence := 13/20 }] := by
  unfold pipelineC9
  rw [detectShellC9a]
  have hassign : assignRingIds [] [] [shellRing23, shellRing67] [] true
      = [{ shellRing23 with merged_patterns := [.shell_chain], ring_id := 1 },
         { shellRing67 with merged_patterns := [.shell_chain], ring_id := 2 }] := by
    norm_num [assignRingIds, mergeRings, mergeGroup, shouldMerge,
      primaryPattern, shellRing23, shellRing67, dedupKeepFirst, pySorted,
      pySortBy, stableInsert, List.enum, List.enumFrom, Pat.idx, List.filter]
    simp
  rw [hassign]
  norm_num [formatFraudRings, riskScore, confidenceScore, Config.RING_RISK,
    shellRing23, shellRing67, pyRound, pyRoundInt, pySortBy, stableInsert,
    List.foldl]

theorem pipelineC9b_eval :
    pipelineC9 orderC9b =
      [{ ring_id := 1, member_accounts := [6, 7], pattern_type := .shell_chain,
         risk_score := 70, confidence := 13/20 },
       { ring_id := 2, member_accounts := [2, 3], pattern_type := .shell_chain,
         risk_score := 70, confidence := 13/20 }] := by
  unfold pipelineC9
  rw [detectShellC9b]
  have hassign : assignRingIds [] [] [shellRing67, shellRing23] [] true
      = [{ shellRing67 with merged_patterns := [.shell_chain], ring_id := 1 },
         { shellRing23 with merged_patterns := [.shell_chain], ring_id := 2 }] := by
    norm_num [assignRingIds, mergeRings, mergeGroup, shouldMerge,
      primaryPattern, shellRing23, shellRing67, dedupKeepFirst, pySorted,
      pySortBy, stableInsert, List.enum, List.enumFrom, Pat.idx, List.filter]
    simp
  rw [hassign]
  norm_num [formatFraudRings, riskScore, confidenceScore, Config.RING_RISK,
    shellRing23, shellRing67, pyRound, pyRoundInt, pySortBy, stableInsert,
    List.foldl]

/-- **C9.** The engine's output is NOT a function of the input table alone:
`build_graph` inserts the nodes in the iteration order of the Python
string set `set(senders) | set(receivers)`, which varies from process to
process with `PYTHONHASHSEED`, and `detect_shell_networks` iterates
`G.nodes()` in that order, so ring ids and `fraud_rings` order change
between runs. On a table with two disjoint shell chains
`1 → 2 → 3 → 4` and `5 → 6 → 7 → 8`, two iteration orders of the same
account set assign the two rings opposite `RING_00x` ids, so the
formatted outputs differ. -/
theorem C9_output_depends_on_set_iteration_order :
    List.Perm orderC9a orderC9b ∧
    (pipelineC9 orderC9a).map (fun r => (r.ring_id, r.member_accounts))
      = [(1, [2, 3]), (2, [6, 7])] ∧
    (pipelineC9 orderC9b).map (fun r => (r.ring_id, r.member_accounts))
      = [(1, [6, 7]), (2, [2, 3])] ∧
    pipelineC9 orderC9a ≠ pipelineC9 orderC9b := by
  refine ⟨by decide, ?_, ?_, ?_⟩
  · rw [pipelineC9a_eval]; rfl
  · rw [pipelineC9b_eval]; rfl
  · rw [pipelineC9a_eval, pipelineC9b_eval]
    simp
